import Mathlib

/-!
# Co-simulation bridge (`hw/rtl/bridge.c`): register protocol

Shallow embedding of the QEMU side of the register-access bridge.  Bytes are
natural numbers (their ASCII codes), a frame is a list of bytes, and every
call into QEMU or libc that the bridge makes is either a pure function below
or an `Event` appended to the trace of the `World`.
-/

namespace Cosim

/-! ## libc pieces used by the bridge -/

/-- Bytes of a C string literal (without the terminating NUL). -/
def bytes (s : String) : List Nat := s.toList.map Char.toNat

/-- The C string stored in a char array: the bytes before the first NUL. -/
def cstr (buf : List Nat) : List Nat := buf.takeWhile (fun c => c != 0)

/-- C `strncmp`: compares at most `n` bytes and stops after a NUL; a list that
ends early reads as NUL from there on (the zeroed `guard` after `reply`). -/
def strncmp : List Nat → List Nat → Nat → Int
  | _, _, 0 => 0
  | a, b, n + 1 =>
    let c1 := a.headD 0
    let c2 := b.headD 0
    if c1 ≠ c2 then (c1 : Int) - (c2 : Int)
    else if c1 = 0 then 0
    else strncmp a.tail b.tail n

/-- Upper-case hexadecimal digit of `d < 16`, as printed by `%X`. -/
def hexdigit (d : Nat) : Nat := if d < 10 then 48 + d else 55 + d

/-- Hexadecimal digits of `v`, most significant first, no leading zero
(`[]` for zero); `fuel` bounds the number of digits. -/
def hex_sig : Nat → Nat → List Nat
  | 0, _ => []
  | fuel + 1, v => if v = 0 then [] else hex_sig fuel (v / 16) ++ [v % 16]

/-- The printf conversion `%0wX` of an `unsigned int` argument: the digits of
the value (at least one), padded with zeros on the left up to `w` characters. -/
def fmt_X (w v : Nat) : List Nat :=
  let sig := hex_sig 8 (v % 2 ^ 32)
  let ds := if sig = [] then [0] else sig
  (List.replicate (w - ds.length) 0 ++ ds).map hexdigit

/-- C `snprintf(buf, size, ...)` for an already formatted text: at most
`size - 1` bytes are stored (then a NUL), the full length is returned. -/
def snprintf (size : Nat) (text : List Nat) : List Nat × Nat :=
  (text.take (size - 1), text.length)

/-- C `isspace` in the "C" locale. -/
def isspace (c : Nat) : Bool := c == 32 || (9 ≤ c && c ≤ 13)

/-- Value of a hexadecimal digit character, either case. -/
def hexval (c : Nat) : Option Nat :=
  if 48 ≤ c ∧ c ≤ 57 then some (c - 48)
  else if 65 ≤ c ∧ c ≤ 70 then some (c - 55)
  else if 97 ≤ c ∧ c ≤ 102 then some (c - 87)
  else none

/-- Reads the longest run of hexadecimal digits, accumulating their value. -/
def scan_digits : List Nat → Nat → Nat
  | [], acc => acc
  | c :: cs, acc =>
    match hexval c with
    | some d => scan_digits cs (16 * acc + d)
    | none => acc

/-- An optional sign, `-` or `+`, is taken off the input. -/
def skip_sign (s : List Nat) : List Nat :=
  if s.head? = some 45 ∨ s.head? = some 43 then s.tail else s

/-- An optional `0x` or `0X` is taken off the input. -/
def skip_0x (s : List Nat) : List Nat :=
  if s.head? = some 48 ∧ (s.tail.head? = some 120 ∨ s.tail.head? = some 88) then s.drop 2 else s

/-- The scanf conversion `%x` into an unsigned object of `bits` bits: skips
white space, takes an optional sign and an optional `0x`, then needs at least
one hexadecimal digit; `none` is a matching failure (or end of input).  On
one input the C libraries differ: for `0x` or `0X` with no hexadecimal digit
behind it the C standard, followed here, has a matching failure, while some
libraries store 0 and count the item.  The properties stated on what is
scanned from a frame concern frames on which the two readings agree: frames
that are scanned with success here (then any library gives the same value),
and frames without a hexadecimal digit at the place of the number (then no
library scans one). -/
def scan_x (bits : Nat) (s : List Nat) : Option Nat :=
  let s := s.dropWhile isspace
  let neg := s.head? = some 45
  let s := skip_0x (skip_sign s)
  if (s.head?.bind hexval).isSome then
    let v := scan_digits s 0 % 2 ^ bits
    some (if neg then (2 ^ bits - v) % 2 ^ bits else v)
  else none

/-- Ordinary characters of a scanf format: each must equal the next input
byte; returns the input that is left. -/
def scan_lit : List Nat → List Nat → Option (List Nat)
  | [], s => some s
  | _ :: _, [] => none
  | c :: cs, d :: s => if c = d then scan_lit cs s else none

/-- Outcome of `sscanf(s, "<lit>%x<white space>", &v)`: `some v` when it
returns 1 (one item assigned), `none` otherwise. -/
def sscanf_x (lit : List Nat) (bits : Nat) (s : List Nat) : Option Nat :=
  match scan_lit lit s with
  | some rest => scan_x bits rest
  | none => none

/-! ## Bridge state, events and the world around the bridge -/

/-- The fields of `struct RTLBridge` that the protocol code reads or writes.
`pipes` is the content of the notification pipe (written, not yet read). -/
structure RTLBridge where
  base : Nat
  span : Nat
  sync : Nat
  irq_level : Nat
  reply : List Nat
  pipes : List Nat
  deriving DecidableEq, Repr

/-- What the owning context does to the outside, in program order. -/
inductive Event where
  /-- A call `qemu_chr_fe_write_all(&rtl->comm, buf, n)`. -/
  | chr_write (buf : List Nat)
  /-- A return from `qemu_cond_wait`, with the reply frame found in `rtl->reply`. -/
  | wake (reply : List Nat)
  /-- A call `qemu_set_irq(rtl->irq, level)`. -/
  | set_irq (level : Nat)
  /-- A call `qemu_system_shutdown_request`. -/
  | shutdown_request
  /-- A call `timer_mod(rtl->timer, expire)`. -/
  | timer_mod (expire : Int)
  /-- A call `qemu_log_mask(LOG_GUEST_ERROR, "Wrong reply!")`. -/
  | log_guest_error
  deriving DecidableEq, Repr

/-- The bridge together with its surroundings.  `rx` holds the results of the
transport reads the receiving thread has still to make (a result that is not
12 bytes long is a short or failed read), `live` tells whether that thread is
still in its loop, `remote` is the simulator at the other end (given all the
commands sent so far, the frames it sends in answer to the last one), and
`trace` records the events of the owning context, oldest first. -/
structure World where
  rtl : RTLBridge
  rx : List (List Nat)
  live : Bool
  remote : List (List Nat) → List (List Nat)
  trace : List Event

/-- The command frames written to the transport, in order. -/
def sent : List Event → List (List Nat)
  | [] => []
  | Event.chr_write buf :: es => buf :: sent es
  | _ :: es => sent es

/-- The text of `rtl->reply` as a C string: the array has 12 bytes and is
followed by the zeroed `guard`. -/
def reply_str (rtl : RTLBridge) : List Nat := cstr (rtl.reply.take 12)

/-- What the receiving thread gets to read once `cmd` has been sent: what
was pending already, then the answer of the remote. -/
def inbound (w : World) (cmd : List Nat) : List (List Nat) :=
  w.rx ++ w.remote (sent w.trace ++ [cmd])

/-- The call `qemu_chr_fe_write_all(&rtl->comm, buf, n)`: the bytes go out and
the answer of the remote, if any, joins the pending reads. -/
def qemu_chr_fe_write_all (w : World) (buf : List Nat) : World :=
  { w with trace := w.trace ++ [Event.chr_write buf], rx := inbound w buf }

/-- The call `qemu_set_irq(rtl->irq, level)`. -/
def qemu_set_irq (w : World) (level : Nat) : World :=
  { w with trace := w.trace ++ [Event.set_irq level] }

/-- The call `qemu_system_shutdown_request(SHUTDOWN_CAUSE_GUEST_SHUTDOWN)`. -/
def qemu_system_shutdown_request (w : World) : World :=
  { w with trace := w.trace ++ [Event.shutdown_request] }

/-- The call `timer_mod(rtl->timer, expire)`. -/
def timer_mod (w : World) (expire : Int) : World :=
  { w with trace := w.trace ++ [Event.timer_mod expire] }

/-- The call `qemu_log_mask(LOG_GUEST_ERROR, "Wrong reply!")`. -/
def qemu_log_mask (w : World) : World :=
  { w with trace := w.trace ++ [Event.log_guest_error] }

/-! ## The receiving thread -/

/-- How one turn of the loop of `rtl_thread` ends. -/
inductive Turn where
  /-- The frame was handed over: `qemu_cond_signal` was called. -/
  | signalled
  /-- The loop goes on without waking the waiter. -/
  | silent
  /-- The loop was left (`break`). -/
  | exited
  deriving DecidableEq, Repr

/-- One turn of the loop of `rtl_thread` on the result `buf` of
`qemu_chr_fe_read_all` (the write to the notification pipe succeeds). -/
def rtl_thread_iter (rtl : RTLBridge) (buf : List Nat) : RTLBridge × Turn :=
  if buf.length = 12 then
    let rtl := { rtl with reply := buf }
    if rtl.reply.headD 0 = 73 then
      match sscanf_x (bytes "I=") 32 (reply_str rtl) with
      | some x => ({ rtl with irq_level := x, pipes := rtl.pipes ++ [x] }, Turn.silent)
      | none => (rtl, Turn.silent)
    else (rtl, Turn.signalled)
  else (rtl, Turn.exited)

/-- The receiving thread runs until it signals, leaves its loop, or has no
input left (`silent`: it is blocked in its read).  The loop of the source does
not pause after `qemu_cond_signal`: it goes on to its next read while the owning
context resumes.  Stopping here at the signal describes the schedule in which
the owning context has used the reply before the next read of the thread
completes; with nothing pending behind the signalled frame every schedule is
of this kind. -/
def rtl_thread_run (rtl : RTLBridge) : List (List Nat) → RTLBridge × List (List Nat) × Turn
  | [] => (rtl, [], Turn.silent)
  | buf :: rest =>
    match rtl_thread_iter rtl buf with
    | (rtl1, Turn.silent) => rtl_thread_run rtl1 rest
    | (rtl1, t) => (rtl1, rest, t)

/-- The call `qemu_cond_wait(&rtl->reply_wait, &rtl->reply_mutex)` of the owning
context: it resumes (`true`) when the receiving thread signals, and never
(`false`) when that thread has left its loop or gets no more input.  The
receiving thread is run here, on the pending reads, while the owning context
is blocked, and the frames behind the signalled one stay in `rx` for the next
wait.  In the source the thread copies each frame it reads into `rtl->reply`
without holding the mutex, so a frame that is read right behind the signalled
one can replace it before the owning context has looked at the reply; that
schedule is not described here.  What the owning context finds in the reply
buffer is therefore only stated for waits with nothing pending behind the
frame handed over (`rx` empty after the wait), where the source leaves no
choice. -/
def qemu_cond_wait (w : World) : World × Bool :=
  if w.live then
    match rtl_thread_run w.rtl w.rx with
    | (rtl, rest, Turn.signalled) =>
      ({ w with rtl := rtl, rx := rest, trace := w.trace ++ [Event.wake rtl.reply] }, true)
    | (rtl, rest, Turn.exited) => ({ w with rtl := rtl, rx := rest, live := false }, false)
    | (rtl, rest, Turn.silent) => ({ w with rtl := rtl, rx := rest }, false)
  else (w, false)

/-! ## The operations of the owning context -/

/-- The value `rtl->span - 0x10`, computed in `uint32_t`. -/
def sim_ctrl (rtl : RTLBridge) : Nat := (rtl.span + 2 ^ 32 - 16) % 2 ^ 32

/-- The function `rtl_read`; the value is `none` when the call never returns
(the size of the access is not used by the source either). -/
def rtl_read (w : World) (addr : Nat) (_size : Nat) : World × Option Nat :=
  let reg := addr % 2 ^ 32
  let val := 0
  let (cmd, n) := snprintf 31 (bytes "R:" ++ fmt_X 8 reg ++ bytes "\r\n")
  if n < 31 then
    let w := qemu_chr_fe_write_all w (cmd.take n)
    match qemu_cond_wait w with
    | (w, false) => (w, none)
    | (w, true) =>
      match sscanf_x (bytes "R=") 64 (reply_str w.rtl) with
      | some v =>
        let val := v >>> ((reg &&& 3) * 8)
        (qemu_set_irq w w.rtl.irq_level, some val)
      | none => (qemu_log_mask w, some val)
  else (w, some val)

/-- The function `rtl_write`; the flag tells whether the call returns.  The
two tests of the source on the control register are taken together: the stop
branch, which returns early, comes first.  The memory core calls with a size
of 1, 2 or 4, for which `1 << size` does not overflow. -/
def rtl_write (w : World) (addr val size : Nat) : World × Bool :=
  let reg := addr % 2 ^ 32
  if reg = sim_ctrl w.rtl ∧ val = 0 then
    let (cmd, n) := snprintf 31 (bytes "X:STOP    \r\n")
    let w := qemu_chr_fe_write_all w (cmd.take n)
    (qemu_system_shutdown_request w, true)
  else
    let (cmd, n) :=
      if reg = sim_ctrl w.rtl then
        snprintf 31 (bytes "T:" ++ fmt_X 8 (val % 2 ^ 32) ++ bytes "\r\n")
      else
        let data := (val <<< ((reg &&& 3) * 8)) % 2 ^ 64 % 2 ^ 32
        let mask := (((1 <<< size) - 1) <<< (reg &&& 3)) % 2 ^ 8
        snprintf 31 (bytes "W:" ++ fmt_X 8 reg ++ bytes "<=" ++ fmt_X 8 data
          ++ bytes "|" ++ fmt_X 1 mask ++ bytes "\r\n")
    if n < 31 then
      let w := qemu_chr_fe_write_all w (cmd.take n)
      match qemu_cond_wait w with
      | (w, false) => (w, false)
      | (w, true) =>
        if strncmp w.rtl.reply (bytes "W=OK      \r\n") 12 = 0
            ∨ strncmp w.rtl.reply (bytes "T=") 2 = 0 then
          (qemu_set_irq w w.rtl.irq_level, true)
        else (qemu_log_mask w, true)
    else (w, true)

/-- The `do ... while` of `rtl_reset`: wait, again while the reply is not the
acknowledgment.  Every wait that resumes takes a frame from `rx`, so `fuel`
above the length of `rx` is never used up (`reset_wait_fuel`). -/
def rtl_reset_wait : Nat → World → World × Bool
  | 0, w => (w, false)
  | fuel + 1, w =>
    match qemu_cond_wait w with
    | (w, false) => (w, false)
    | (w, true) =>
      if strncmp w.rtl.reply (bytes "X=RUNNING \r\n") 12 ≠ 0 then rtl_reset_wait fuel w
      else (w, true)

/-- The function `rtl_reset`; `now` is what `qemu_clock_get_us` returns after
the wait, the flag tells whether the call returns. -/
def rtl_reset (w : World) (now : Int) : World × Bool :=
  let w := { w with rtl := { w.rtl with irq_level := 0 } }
  let w := qemu_set_irq w w.rtl.irq_level
  let w := qemu_chr_fe_write_all w ((bytes "X:RESET   \r\n").take 12)
  match rtl_reset_wait (w.rx.length + 1) w with
  | (w, false) => (w, false)
  | (w, true) => (timer_mod w (now + (w.rtl.sync : Int)), true)

/-- The function `rtl_timer_cb`; `now` is what `qemu_clock_get_us` returns,
the flag tells whether the call returns. -/
def rtl_timer_cb (w : World) (now : Int) : World × Bool :=
  let w := timer_mod w (now + (w.rtl.sync : Int))
  let (cmd, n) := snprintf 31 (bytes "T:" ++ fmt_X 8 1 ++ bytes "\r\n")
  let w := qemu_chr_fe_write_all w (cmd.take n)
  qemu_cond_wait w

/-! ## Vocabulary of the properties -/

/-- The number `v` written with exactly `n` upper-case hexadecimal digits,
most significant first (the low `n` digits of `v`). -/
def hex_field : Nat → Nat → List Nat
  | 0, _ => []
  | n + 1, v => hex_field n (v / 16) ++ [hexdigit (v % 16)]

/-- Value of a list of hexadecimal digit characters, most significant first. -/
def hex_value (ds : List Nat) : Nat :=
  ds.foldl (fun a c => 16 * a + (hexval c).getD 0) 0

/-- Byte `i` (0 is the least significant) of the number `v`. -/
def byte_lane (v i : Nat) : Nat := v / 256 ^ i % 256

/-- The read command `R:AAAAAAAA` with its CR LF. -/
def cmd_R (reg : Nat) : List Nat := bytes "R:" ++ hex_field 8 reg ++ bytes "\r\n"

/-- The write command `W:AAAAAAAA<=DDDDDDDD|M` with its CR LF. -/
def cmd_W (reg data mask : Nat) : List Nat :=
  bytes "W:" ++ hex_field 8 reg ++ bytes "<=" ++ hex_field 8 data ++ bytes "|"
    ++ hex_field 1 mask ++ bytes "\r\n"

/-- The time-advance command `T:NNNNNNNN` with its CR LF. -/
def cmd_T (n : Nat) : List Nat := bytes "T:" ++ hex_field 8 n ++ bytes "\r\n"

/-- The stop command. -/
def cmd_STOP : List Nat := bytes "X:STOP    \r\n"

/-- The reset command. -/
def cmd_RESET : List Nat := bytes "X:RESET   \r\n"

/-- The acknowledgment of a reset. -/
def ack_RUNNING : List Nat := bytes "X=RUNNING \r\n"

/-- The acknowledgment of a write. -/
def ack_W : List Nat := bytes "W=OK      \r\n"

/-- The text `rtl_write` formats when it does not stop the simulation: a
time-advance for the control register, otherwise the write command (its mask
field is printed with `%01X`, so it takes two digits for a mask above 15). -/
def write_text (rtl : RTLBridge) (addr val size : Nat) : List Nat :=
  if addr % 2 ^ 32 = sim_ctrl rtl then cmd_T (val % 2 ^ 32)
  else
    bytes "W:" ++ hex_field 8 (addr % 2 ^ 32) ++ bytes "<="
      ++ hex_field 8 ((val <<< (8 * (addr % 2 ^ 32 % 4))) % 2 ^ 32) ++ bytes "|"
      ++ fmt_X 1 ((((1 <<< size) - 1) <<< (addr % 2 ^ 32 % 4)) % 2 ^ 8) ++ bytes "\r\n"

/-- What `rtl_write` does with the outcome of its wait. -/
def write_reply (r : World × Bool) : World × Bool :=
  if r.2 then
    if strncmp r.1.rtl.reply (bytes "W=OK      \r\n") 12 = 0
        ∨ strncmp r.1.rtl.reply (bytes "T=") 2 = 0 then
      (qemu_set_irq r.1 r.1.rtl.irq_level, true)
    else (qemu_log_mask r.1, true)
  else (r.1, false)

/-- What `rtl_read` does with the outcome of its wait, for the register `reg`. -/
def read_reply (reg : Nat) (r : World × Bool) : World × Option Nat :=
  if r.2 then
    match sscanf_x (bytes "R=") 64 (reply_str r.1.rtl) with
    | some v => (qemu_set_irq r.1 r.1.rtl.irq_level, some (v >>> (8 * (reg % 4))))
    | none => (qemu_log_mask r.1, some 0)
  else (r.1, none)

/-- What `rtl_reset` does once its loop is over. -/
def reset_done (now : Int) (r : World × Bool) : World × Bool :=
  if r.2 then (timer_mod r.1 (now + (r.1.rtl.sync : Int)), true) else (r.1, false)

/-! ## The echo-back fake of the round-trip property -/

/-- The word `old` with the bytes enabled in `mask` (bit `i` for byte `i`)
replaced by the corresponding bytes of `data`. -/
def merge_lanes (old data mask : Nat) : Nat :=
  (List.range 4).foldl
    (fun acc i => acc + 256 ^ i * (if mask.testBit i then byte_lane data i else byte_lane old i)) 0

/-- The fields of a command `W:AAAAAAAA<=DDDDDDDD|M`: address, data, mask. -/
def fake_parse_W (cmd : List Nat) : Option (Nat × Nat × Nat) :=
  match scan_lit (bytes "W:") cmd with
  | none => none
  | some r1 =>
    match scan_lit (bytes "<=") (r1.drop 8) with
    | none => none
    | some r2 =>
      match scan_lit (bytes "|") (r2.drop 8) with
      | none => none
      | some r3 => some (hex_value (r1.take 8), hex_value (r2.take 8), hex_value (r3.take 1))

/-- The address field of a command `R:AAAAAAAA`. -/
def fake_parse_R (cmd : List Nat) : Option Nat :=
  match scan_lit (bytes "R:") cmd with
  | none => none
  | some r1 => some (hex_value (r1.take 8))

/-- One command handled by the echo-back fake, which holds one 32-bit word for
each 4-byte-aligned address: a `W` command replaces the bytes enabled in its
mask by those of its data field and is answered `W=OK`, an `R` command is
answered with the whole word, anything else is ignored. -/
def fake_step (mem : Nat → Nat) (cmd : List Nat) : (Nat → Nat) × List (List Nat) :=
  match fake_parse_W cmd with
  | some (a, d, m) =>
    (fun x => if x = a - a % 4 then merge_lanes (mem (a - a % 4)) d m else mem x, [ack_W])
  | none =>
    match fake_parse_R cmd with
    | some a => (mem, [bytes "R=" ++ hex_field 8 (mem (a - a % 4)) ++ bytes "\r\n"])
    | none => (mem, [])

/-- The echo-back fake as a remote: its memory starts as `mem` and has seen
all the commands but the last, which it answers. -/
def echo_fake (mem : Nat → Nat) (cmds : List (List Nat)) : List (List Nat) :=
  match cmds.getLast? with
  | none => []
  | some cmd => (fake_step (cmds.dropLast.foldl (fun m c => (fake_step m c).1) mem) cmd).2

/-- A bridge attached to the echo-back fake, nothing sent or received yet. -/
def fake_world (rtl : RTLBridge) (mem : Nat → Nat) : World :=
  { rtl := rtl, rx := [], live := true, remote := echo_fake mem, trace := [] }

/-- A bridge with the default properties of the device, interrupt level 5,
the transport reads `rx` pending and a remote that sends nothing else. -/
def demo_world (rx : List (List Nat)) : World :=
  { rtl := { base := 0xE0000000, span := 0x01000000, sync := 1000, irq_level := 5,
             reply := [], pipes := [] },
    rx := rx, live := true, remote := fun _ => [], trace := [] }

/-- The text starts with `lit` followed by a hexadecimal number as `%x` reads
one: white space (possibly none), an optional sign, an optional `0x` or `0X`,
and then at least one hexadecimal digit. -/
def starts_with_hex (lit s : List Nat) : Prop :=
  ∃ ws sign pfx d rest, s = lit ++ ws ++ sign ++ pfx ++ d :: rest
    ∧ (∀ c ∈ ws, isspace c = true)
    ∧ (sign = [] ∨ sign = [43] ∨ sign = [45])
    ∧ (pfx = [] ∨ pfx = [48, 120] ∨ pfx = [48, 88])
    ∧ (hexval d).isSome = true

/-- The outcome of the wait that follows the sending of `cmd`. -/
def await (w : World) (cmd : List Nat) : World × Bool :=
  qemu_cond_wait (qemu_chr_fe_write_all w cmd)

/-- The interrupt level the bridge holds once the receiving thread has handled
the frames `pre`, starting from the level `level`: each frame that is scanned
as `I=%X` stores its value. -/
def level_after (level : Nat) : List (List Nat) → Nat
  | [] => level
  | f :: fs => level_after ((sscanf_x (bytes "I=") 32 (cstr f)).getD level) fs

/-- One operation of the owning context. -/
inductive Op where
  | read (addr size : Nat)
  | write (addr val size : Nat)
  | reset (now : Int)
  | timer_cb (now : Int)
  deriving DecidableEq, Repr

/-- Runs one operation; the flag tells whether it returns. -/
def exec (w : World) : Op → World × Bool
  | Op.read addr size => ((rtl_read w addr size).1, (rtl_read w addr size).2.isSome)
  | Op.write addr val size => rtl_write w addr val size
  | Op.reset now => rtl_reset w now
  | Op.timer_cb now => rtl_timer_cb w now

/-- The owning context runs its operations one after the other; an operation
that never returns ends the run. -/
def run (w : World) : List Op → World
  | [] => w
  | op :: ops => if (exec w op).2 = true then run (exec w op).1 ops else (exec w op).1

/-- The operation is a stop: a write of zero to the control register. -/
def is_stop (w : World) : Op → Prop
  | Op.write addr val _ => addr % 2 ^ 32 = sim_ctrl w.rtl ∧ val = 0
  | _ => False

instance (w : World) (op : Op) : Decidable (is_stop w op) := by
  cases op <;> unfold is_stop <;> infer_instance

/-- Counting unanswered commands along a trace: a command sent adds one, unless
it is one of `skip`, and a wake-up answers one. -/
def answer_step (skip : List (List Nat)) (n : Nat) : Event → Nat
  | Event.chr_write c => if c ∈ skip then n else n + 1
  | Event.wake _ => n - 1
  | _ => n

/-- The number of commands, other than those of `skip`, that are sent and not
yet answered at the end of the trace `t`. -/
def unanswered (skip : List (List Nat)) (t : List Event) : Nat :=
  t.foldl (answer_step skip) 0

/-- An event that neither sends a command nor takes a wake-up. -/
def Event.quiet : Event → Bool
  | Event.chr_write _ => false
  | Event.wake _ => false
  | _ => true

/-- Starting with `n` unanswered commands, there are never two of them along
the trace `t`. -/
def never_two (skip : List (List Nat)) : Nat → List Event → Prop
  | n, [] => n ≤ 1
  | n, e :: t => n ≤ 1 ∧ never_two skip (answer_step skip n e) t

/-! ## The notification relay -/

/-- The function `rtl_incoming_notification`, the handler of the read end of
the pipe: a level in the pipe is read into `irq_level`; with the pipe empty
the read of the non-blocking end fails and `irq_level` stays; either way
`qemu_set_irq` is called with `irq_level`.  (The write end is never closed, so
the read never returns 0.) -/
def rtl_incoming_notification (w : World) : World :=
  match w.rtl.pipes with
  | x :: rest =>
    let w := { w with rtl := { w.rtl with irq_level := x, pipes := rest } }
    qemu_set_irq w w.rtl.irq_level
  | [] => qemu_set_irq w w.rtl.irq_level

/-- What happens around the relay: the receiving thread handles a frame it
has read, or the handler `rtl_incoming_notification` runs. -/
inductive RelayAct where
  | report (frame : List Nat)
  | notify
  deriving DecidableEq, Repr

/-- One step around the relay. -/
def relay_step (w : World) : RelayAct → World
  | RelayAct.report frame => { w with rtl := (rtl_thread_iter w.rtl frame).1 }
  | RelayAct.notify => rtl_incoming_notification w

/-- The steps of a schedule, one after the other. -/
def relay_run (w : World) (acts : List RelayAct) : World := acts.foldl relay_step w

/-- The frame is an interrupt report of the level `level`: 12 bytes, the
first an `I`, read as `I=` and the level in hexadecimal. -/
def irq_report (frame : List Nat) (level : Nat) : Prop :=
  frame.length = 12 ∧ frame.headD 0 = 73 ∧ sscanf_x (bytes "I=") 32 (cstr frame) = some level

/-- The levels of the reports of a schedule, in order. -/
def reported : List RelayAct → List Nat
  | [] => []
  | RelayAct.report frame :: acts =>
    match sscanf_x (bytes "I=") 32 (cstr frame) with
    | some level => level :: reported acts
    | none => reported acts
  | RelayAct.notify :: acts => reported acts

/-- The number of reports of a schedule. -/
def report_count : List RelayAct → Nat
  | [] => 0
  | RelayAct.report _ :: acts => report_count acts + 1
  | RelayAct.notify :: acts => report_count acts

/-- The number of runs of the handler in a schedule. -/
def notify_count : List RelayAct → Nat
  | [] => 0
  | RelayAct.report _ :: acts => notify_count acts
  | RelayAct.notify :: acts => notify_count acts + 1

/-! ## The pseudo-terminal side (`PTYemu.c`) and the host-side reader (`read-data.c`) -/

/-- The function `pty_write` for `ptm.fd = fd`: the bytes it hands to `write`,
none when it returns without writing.  `data` is a C `int`. -/
def pty_write (fd : Int) (data : Int) : List Nat :=
  if data < 0 then []
  else if fd < 0 then []
  else if data.toNat &&& 1 ≠ 0 then []
  else
    let data := data.toNat >>> 1
    if data < 0x100 then
      let escape := [0xFF, 0x00, if data ≠ 0 then 0x15 else 0x00]
      escape.take 3
    else
      let data := data &&& 0xFF
      let buffer := [data, data]
      let n := if data = 0xFF then 2 else 1
      buffer.take n

/-- What `ppoll` reports to `pty_read`: its return value and the flags
`POLLHUP` and `POLLIN` of `ptm.revents`. -/
structure Poll where
  n : Int
  hup : Bool
  pollin : Bool
  deriving DecidableEq, Repr

/-- The state `pty_read` works on: `ptm.fd`, its static `line_old`, and the
bytes the transport holds for it, next first. -/
structure PtyLine where
  fd : Int
  line_old : Bool
  pending : List Nat
  deriving DecidableEq, Repr

/-- The function `pty_read` on the outcome `p` of its poll; `read` gives the
next byte of the transport, and fails when there is none. -/
def pty_read (s : PtyLine) (p : Poll) : PtyLine × Int :=
  if s.fd < 0 then (s, -1)
  else
    let line_now := !p.hup
    if line_now ≠ s.line_old then
      ({ s with line_old := line_now }, if line_now then 0x100 else 0x104)
    else if 0 < p.n ∧ p.pollin = true then
      match s.pending with
      | x :: rest => ({ s with pending := rest }, (x : Int))
      | [] => (s, -1)
    else (s, -1)

/-- Successive calls of `pty_read`, one for each poll outcome: the state left
and the values returned, in order. -/
def pty_reads (s : PtyLine) : List Poll → PtyLine × List Int
  | [] => (s, [])
  | p :: ps =>
    ((pty_reads (pty_read s p).1 ps).1, (pty_read s p).2 :: (pty_reads (pty_read s p).1 ps).2)

/-- The statics of `read-data.c` that `serial_read` works on: the escape state
`e`, the count `lines`, the `outlen` bytes now in `outbuf`, and the blocks
handed to `process` so far, oldest first. -/
structure Reader where
  e : Nat
  lines : Nat
  outbuf : List Nat
  records : List (List Nat)
  deriving DecidableEq, Repr

/-- The end of the loop body of `serial_read`: the byte is stored in `outbuf`,
and a full `outbuf` (16 bytes) is handed to `process`, which counts a line. -/
def serial_store (st : Reader) (c : Nat) : Reader :=
  let outbuf := st.outbuf ++ [c]
  if outbuf.length = 16 then
    { st with outbuf := [], records := st.records ++ [outbuf], lines := st.lines + 1 }
  else { st with outbuf := outbuf }

/-- The `for` loop of `serial_read` over the bytes read; the flag is what
`serial_read` returns (`false`: break detected, the rest is not looked at). -/
def serial_loop (st : Reader) : List Nat → Reader × Bool
  | [] => (st, true)
  | c :: cs =>
    if st.e = 0 ∧ c = 0xFF then serial_loop { st with e := 1 } cs
    else if st.e = 1 ∧ c = 0xFF then serial_loop (serial_store { st with e := 0 } c) cs
    else if st.e = 1 then serial_loop { st with e := 2 } cs
    else if st.e = 2 then
      if st.lines = 0 then serial_loop { st with e := 0 } cs
      else ({ st with e := 0 }, false)
    else serial_loop (serial_store st c) cs

/-- The function `serial_read` on the bytes `chunk` its `read` returns (none:
the `read` returned 0 or failed). -/
def serial_read (st : Reader) (chunk : List Nat) : Reader × Bool :=
  if chunk.length ≤ 0 then (st, false) else serial_loop st chunk

/-- The loop `while (serial_read()) ;` of `main`, on the chunks the successive
reads return. -/
def serial_reads (st : Reader) : List (List Nat) → Reader × Bool
  | [] => (st, true)
  | chunk :: chunks =>
    if (serial_read st chunk).2 = true then serial_reads (serial_read st chunk).1 chunks
    else serial_read st chunk

/-- All the bytes stored in `outbuf` so far, in order: the blocks handed to
`process`, then what `outbuf` holds now. -/
def Reader.output (st : Reader) : List Nat := st.records.flatten ++ st.outbuf

/-- The symbol value that `pty_write` takes as the literal data byte `b`. -/
def literal_symbol (b : Nat) : Int := (((0x100 + b) <<< 1 : Nat) : Int)

/-! ## Lemmas on the libc pieces -/

theorem hexval_hexdigit (d : Nat) (h : d < 16) : hexval (hexdigit d) = some d := by
  interval_cases d <;> rfl

theorem hex_sig_zero (n : Nat) : hex_sig n 0 = [] := by
  cases n <;> simp [hex_sig]

theorem hex_sig_pad (n v : Nat) :
    (hex_sig n v).length ≤ n ∧
    (List.replicate (n - (hex_sig n v).length) 0 ++ hex_sig n v).map hexdigit
      = hex_field n v := by
  induction n generalizing v with
  | zero => simp [hex_sig, hex_field]
  | succ n ih =>
    by_cases hv : v = 0
    · subst hv
      have h0 := (ih 0).2
      rw [hex_sig_zero] at h0
      simp only [hex_sig_zero, List.length_nil, Nat.zero_le, true_and, Nat.sub_zero,
        List.append_nil, hex_field, Nat.zero_div, Nat.zero_mod]
      rw [List.replicate_succ', List.map_append]
      simpa using h0
    · obtain ⟨hl, hp⟩ := ih (v / 16)
      simp only [hex_sig, hv, if_false, List.length_append, List.length_singleton, hex_field]
      refine ⟨by omega, ?_⟩
      rw [← hp, Nat.add_sub_add_right]
      simp

theorem fmt_X_8 (v : Nat) : fmt_X 8 v = hex_field 8 (v % 2 ^ 32) := by
  unfold fmt_X
  obtain ⟨hl, hp⟩ := hex_sig_pad 8 (v % 2 ^ 32)
  by_cases hs : hex_sig 8 (v % 2 ^ 32) = []
  · rw [hs] at hp
    simp only [hs, if_true]
    rw [← hp]; rfl
  · simp only [hs, if_false]
    exact hp

theorem hex_field_length (n v : Nat) : (hex_field n v).length = n := by
  induction n generalizing v with
  | zero => rfl
  | succ n ih => simp [hex_field, ih]

theorem fmt_X_1_digit (m : Nat) (h : m < 16) : fmt_X 1 m = hex_field 1 m := by
  interval_cases m <;> rfl

theorem fmt_X_1_length (m : Nat) (h : m < 256) :
    1 ≤ (fmt_X 1 m).length ∧ (fmt_X 1 m).length ≤ 2 := by
  have h1 : m % 2 ^ 32 = m := Nat.mod_eq_of_lt (by omega)
  have h3 : m / 16 / 16 = 0 := by omega
  unfold fmt_X
  rw [h1]
  by_cases hm : m = 0
  · subst hm; simp [hex_sig]
  · by_cases hm2 : m / 16 = 0
    · simp [hex_sig, hm, hm2]
    · simp [hex_sig, hm, hm2, h3]

theorem hex_field_isHex (n v : Nat) : ∀ c ∈ hex_field n v, (hexval c).isSome = true := by
  induction n generalizing v with
  | zero => simp [hex_field]
  | succ n ih =>
    intro c hc
    simp only [hex_field, List.mem_append, List.mem_singleton] at hc
    rcases hc with hc | hc
    · exact ih _ c hc
    · rw [hc, hexval_hexdigit _ (Nat.mod_lt _ (by decide))]; rfl

theorem scan_digits_append (ds rest : List Nat) (acc : Nat)
    (hds : ∀ c ∈ ds, (hexval c).isSome = true) :
    scan_digits (ds ++ rest) acc
      = scan_digits rest (ds.foldl (fun a c => 16 * a + (hexval c).getD 0) acc) := by
  induction ds generalizing acc with
  | nil => rfl
  | cons d ds ih =>
    have hd := hds d (List.mem_cons_self _ _)
    obtain ⟨x, hx⟩ := Option.isSome_iff_exists.mp hd
    simp only [List.cons_append, scan_digits, hx, List.foldl_cons, Option.getD_some]
    exact ih _ (fun c hc => hds c (List.mem_cons_of_mem _ hc))

theorem isHex_facts (c : Nat) (h : (hexval c).isSome = true) :
    isspace c = false ∧ c ≠ 45 ∧ c ≠ 43 ∧ c ≠ 120 ∧ c ≠ 88 ∧ c ≠ 0 := by
  unfold hexval at h
  unfold isspace
  split_ifs at h with h1 h2 h3
  · refine ⟨?_, by omega, by omega, by omega, by omega, by omega⟩
    simp; omega
  · refine ⟨?_, by omega, by omega, by omega, by omega, by omega⟩
    simp; omega
  · refine ⟨?_, by omega, by omega, by omega, by omega, by omega⟩
    simp; omega
  · simp at h

/-- The conversion `%x` on a field of at least two hexadecimal digits that is
followed by a byte which is not one. -/
theorem scan_x_field (bits : Nat) (d1 d2 : Nat) (ds : List Nat) (c : Nat) (rest : List Nat)
    (h1 : (hexval d1).isSome = true) (h2 : (hexval d2).isSome = true)
    (hds : ∀ x ∈ ds, (hexval x).isSome = true) (hc : hexval c = none) :
    scan_x bits (d1 :: d2 :: ds ++ c :: rest) = some (hex_value (d1 :: d2 :: ds) % 2 ^ bits) := by
  obtain ⟨hs1, hm1, hp1, -, -, -⟩ := isHex_facts d1 h1
  obtain ⟨-, -, -, hx2, hX2, -⟩ := isHex_facts d2 h2
  have hall : ∀ x ∈ d1 :: d2 :: ds, (hexval x).isSome = true := by
    intro x hx
    simp only [List.mem_cons] at hx
    rcases hx with rfl | rfl | hx
    · exact h1
    · exact h2
    · exact hds x hx
  have hscan := scan_digits_append (d1 :: d2 :: ds) (c :: rest) 0 hall
  simp only [List.cons_append] at hscan
  simp only [scan_x, skip_sign, skip_0x, List.cons_append, List.dropWhile_cons, hs1, Bool.false_eq_true, if_false,
    List.head?_cons, Option.some.injEq, hm1, hp1, or_self, List.tail_cons, hx2, hX2, and_false,
    Option.bind_some, h1, if_true, hscan]
  have hne : ¬ hexval d1 = none := by
    intro h0; rw [h0] at h1; simp at h1
  simp [scan_digits, hc, hex_value, hne]

/-! ## Lemmas on the world -/

theorem sent_append (a b : List Event) : sent (a ++ b) = sent a ++ sent b := by
  induction a with
  | nil => rfl
  | cons e a ih => cases e <;> simp [sent, ih]

theorem reg_and_3 (reg : Nat) : reg &&& 3 = reg % 4 :=
  Nat.and_pow_two_sub_one_eq_mod reg 2

/-- The wait resumes on a 12-byte frame that is not an interrupt report. -/
theorem cond_wait_reply (w : World) (f : List Nat) (rest : List (List Nat))
    (hlive : w.live = true) (hrx : w.rx = f :: rest) (hlen : f.length = 12)
    (hI : f.headD 0 ≠ 73) :
    qemu_cond_wait w
      = ({ w with rtl := { w.rtl with reply := f }, rx := rest,
                  trace := w.trace ++ [Event.wake f] }, true) := by
  have hI2 : ¬ f.head?.getD 0 = 73 := by simpa [List.headD_eq_head?_getD] using hI
  simp [qemu_cond_wait, hlive, hrx, rtl_thread_run, rtl_thread_iter, hlen, hI2]

/-- Whatever the wait does, it sends nothing and leaves the remote alone. -/
theorem cond_wait_sent (w : World) :
    sent (qemu_cond_wait w).1.trace = sent w.trace ∧ (qemu_cond_wait w).1.remote = w.remote := by
  unfold qemu_cond_wait
  split_ifs with h
  · split <;> simp [sent_append, sent]
  · simp

theorem send_take (text : List Nat) (h : text.length < 31) :
    List.take text.length (List.take (31 - 1) text) = text := by
  rw [List.take_take, List.take_of_length_le]
  omega

theorem bytes_length_facts :
    (bytes "W:").length = 2 ∧ (bytes "<=").length = 2 ∧ (bytes "|").length = 1
    ∧ (bytes "\r\n").length = 2 ∧ (bytes "R:").length = 2 ∧ (bytes "T:").length = 2
    ∧ (bytes "X:STOP    \r\n").length = 12 ∧ (bytes "X:RESET   \r\n").length = 12 := by
  decide

theorem sent_chr_write (w : World) (buf : List Nat) :
    sent (qemu_chr_fe_write_all w buf).trace = sent w.trace ++ [buf] := by
  simp [qemu_chr_fe_write_all, sent_append, sent]

theorem rtl_write_sent_W (w : World) (addr val size : Nat)
    (hctl : addr % 2 ^ 32 ≠ sim_ctrl w.rtl)
    (hmask : ((1 <<< size) - 1) <<< (addr % 2 ^ 32 % 4) < 16) :
    sent (rtl_write w addr val size).1.trace
      = sent w.trace ++ [cmd_W (addr % 2 ^ 32) ((val <<< (8 * (addr % 2 ^ 32 % 4))) % 2 ^ 32)
          (((1 <<< size) - 1) <<< (addr % 2 ^ 32 % 4))] := by
  have hm : (((1 <<< size) - 1) <<< (addr % 2 ^ 32 % 4)) % 2 ^ 8
      = ((1 <<< size) - 1) <<< (addr % 2 ^ 32 % 4) := Nat.mod_eq_of_lt (by omega)
  have hd : (val <<< (addr % 2 ^ 32 % 4 * 8)) % 2 ^ 64 % 2 ^ 32
      = (val <<< (8 * (addr % 2 ^ 32 % 4))) % 2 ^ 32 := by
    rw [Nat.mul_comm, Nat.mod_mod_of_dvd _ (by decide)]
  obtain ⟨b1, b2, b3, b4, -⟩ := bytes_length_facts
  have htext : bytes "W:" ++ fmt_X 8 (addr % 2 ^ 32) ++ bytes "<="
      ++ fmt_X 8 (val <<< (8 * (addr % 2 ^ 32 % 4)) % 2 ^ 32) ++ bytes "|"
      ++ fmt_X 1 ((1 <<< size - 1) <<< (addr % 2 ^ 32 % 4)) ++ bytes "\r\n"
      = cmd_W (addr % 2 ^ 32) ((val <<< (8 * (addr % 2 ^ 32 % 4))) % 2 ^ 32)
          (((1 <<< size) - 1) <<< (addr % 2 ^ 32 % 4)) := by
    rw [fmt_X_8, fmt_X_8, fmt_X_1_digit _ hmask, Nat.mod_mod, Nat.mod_mod]
    rfl
  have hlen : (cmd_W (addr % 2 ^ 32) ((val <<< (8 * (addr % 2 ^ 32 % 4))) % 2 ^ 32)
          (((1 <<< size) - 1) <<< (addr % 2 ^ 32 % 4))).length < 31 := by
    simp [cmd_W, hex_field_length, b1, b2, b3, b4]
  simp only [rtl_write, hctl, false_and, if_false, reg_and_3, hm, hd, snprintf, htext, hlen,
    if_true, send_take _ hlen]
  rcases hw : qemu_cond_wait (qemu_chr_fe_write_all w (cmd_W (addr % 2 ^ 32)
      ((val <<< (8 * (addr % 2 ^ 32 % 4))) % 2 ^ 32)
      (((1 <<< size) - 1) <<< (addr % 2 ^ 32 % 4)))) with ⟨w1, b⟩
  have hs := (cond_wait_sent (qemu_chr_fe_write_all w (cmd_W (addr % 2 ^ 32)
      ((val <<< (8 * (addr % 2 ^ 32 % 4))) % 2 ^ 32)
      (((1 <<< size) - 1) <<< (addr % 2 ^ 32 % 4))))).1
  rw [hw, sent_chr_write] at hs
  cases b
  · simpa using hs
  · simp only
    split_ifs <;> simp [qemu_set_irq, qemu_log_mask, sent_append, sent, hs]

theorem rtl_write_eq (w : World) (addr val size : Nat)
    (hns : ¬ (addr % 2 ^ 32 = sim_ctrl w.rtl ∧ val = 0)) :
    rtl_write w addr val size
      = write_reply (qemu_cond_wait (qemu_chr_fe_write_all w (write_text w.rtl addr val size))) := by
  have hlen : (write_text w.rtl addr val size).length < 31 := by
    obtain ⟨b1, b2, b3, b4, -, b6, -⟩ := bytes_length_facts
    unfold write_text
    split_ifs
    · simp [cmd_T, hex_field_length, b6, b4]
    · have := fmt_X_1_length ((((1 <<< size) - 1) <<< (addr % 2 ^ 32 % 4)) % 2 ^ 8)
        (Nat.mod_lt _ (by decide))
      simp only [List.length_append, hex_field_length, b1, b2, b3, b4]
      omega
  have htext : (if addr % 2 ^ 32 = sim_ctrl w.rtl then
        snprintf 31 (bytes "T:" ++ fmt_X 8 (val % 2 ^ 32) ++ bytes "\r\n")
      else
        snprintf 31 (bytes "W:" ++ fmt_X 8 (addr % 2 ^ 32) ++ bytes "<="
          ++ fmt_X 8 ((val <<< ((addr % 2 ^ 32 &&& 3) * 8)) % 2 ^ 64 % 2 ^ 32)
          ++ bytes "|" ++ fmt_X 1 ((((1 <<< size) - 1) <<< (addr % 2 ^ 32 &&& 3)) % 2 ^ 8)
          ++ bytes "\r\n"))
      = snprintf 31 (write_text w.rtl addr val size) := by
    unfold write_text
    split_ifs
    · rw [fmt_X_8, Nat.mod_mod]; rfl
    · rw [fmt_X_8, fmt_X_8, Nat.mod_mod, Nat.mod_mod, reg_and_3,
        Nat.mod_mod_of_dvd _ (by decide : 2 ^ 32 ∣ 2 ^ 64), Nat.mul_comm]
  simp only [rtl_write, hns, if_false, htext]
  simp only [snprintf, hlen, if_true, send_take _ hlen]
  rcases qemu_cond_wait (qemu_chr_fe_write_all w (write_text w.rtl addr val size)) with ⟨w1, b⟩
  cases b <;> rfl

theorem rtl_write_stop (w : World) (addr val size : Nat)
    (hs : addr % 2 ^ 32 = sim_ctrl w.rtl ∧ val = 0) :
    rtl_write w addr val size
      = (qemu_system_shutdown_request (qemu_chr_fe_write_all w cmd_STOP), true) := by
  have hlen : (bytes "X:STOP    \r\n").length < 31 := by decide
  simp only [rtl_write, hs, and_self, if_true, snprintf, send_take _ hlen]
  rfl

theorem rtl_read_eq (w : World) (addr size : Nat) :
    rtl_read w addr size
      = read_reply (addr % 2 ^ 32)
          (qemu_cond_wait (qemu_chr_fe_write_all w (cmd_R (addr % 2 ^ 32)))) := by
  have htext : bytes "R:" ++ fmt_X 8 (addr % 2 ^ 32) ++ bytes "\r\n" = cmd_R (addr % 2 ^ 32) := by
    rw [fmt_X_8, Nat.mod_mod]; rfl
  have hlen : (cmd_R (addr % 2 ^ 32)).length < 31 := by
    obtain ⟨-, -, -, b4, b5, -⟩ := bytes_length_facts
    simp [cmd_R, hex_field_length, b4, b5]
  simp only [rtl_read, htext, snprintf, hlen, if_true, send_take _ hlen, reg_and_3]
  rcases qemu_cond_wait (qemu_chr_fe_write_all w (cmd_R (addr % 2 ^ 32))) with ⟨w1, b⟩
  cases b
  · rfl
  · simp only [read_reply, if_true, Nat.mul_comm]

theorem rtl_timer_cb_eq (w : World) (now : Int) :
    rtl_timer_cb w now
      = qemu_cond_wait (qemu_chr_fe_write_all (timer_mod w (now + (w.rtl.sync : Int))) (cmd_T 1)) := by
  have htext : bytes "T:" ++ fmt_X 8 1 ++ bytes "\r\n" = cmd_T 1 := by decide
  have hlen : (cmd_T 1).length < 31 := by decide
  simp only [rtl_timer_cb, htext, snprintf, send_take _ hlen]

theorem rtl_reset_eq (w : World) (now : Int) :
    rtl_reset w now
      = reset_done now (rtl_reset_wait ((inbound w cmd_RESET).length + 1)
          (qemu_chr_fe_write_all
            (qemu_set_irq { w with rtl := { w.rtl with irq_level := 0 } } 0) cmd_RESET)) := by
  have htext : (bytes "X:RESET   \r\n").take 12 = cmd_RESET := by decide
  simp only [rtl_reset, htext]
  rcases h : rtl_reset_wait _ _ with ⟨w1, b⟩
  have hrx : (qemu_chr_fe_write_all
      (qemu_set_irq { w with rtl := { w.rtl with irq_level := 0 } } 0) cmd_RESET).rx
      = inbound w cmd_RESET := by
    simp [qemu_chr_fe_write_all, qemu_set_irq, inbound, sent_append, sent]
  rw [hrx] at h
  rw [h]
  cases b <;> rfl


theorem hex_value_lt (ds : List Nat) (acc : Nat) :
    ds.foldl (fun a c => 16 * a + (hexval c).getD 0) acc < (acc + 1) * 16 ^ ds.length := by
  induction ds generalizing acc with
  | nil => simp
  | cons d ds ih =>
    have hd : (hexval d).getD 0 < 16 := by
      unfold hexval
      split_ifs <;> simp <;> omega
    have h := ih (16 * acc + (hexval d).getD 0)
    simp only [List.foldl_cons, List.length_cons]
    calc _ < (16 * acc + (hexval d).getD 0 + 1) * 16 ^ ds.length := h
      _ ≤ ((acc + 1) * 16) * 16 ^ ds.length := Nat.mul_le_mul_right _ (by omega)
      _ = (acc + 1) * 16 ^ (ds.length + 1) := by rw [Nat.pow_succ]; ring

theorem cstr_of_nonzero (l : List Nat) (h : ∀ c ∈ l, c ≠ 0) : cstr l = l := by
  unfold cstr
  rw [List.takeWhile_eq_self_iff]
  intro c hc
  simpa using h c hc

theorem byte_lane_shift (v k i : Nat) : byte_lane (v >>> (8 * k)) i = byte_lane v (k + i) := by
  unfold byte_lane
  rw [Nat.shiftRight_eq_div_pow, Nat.pow_mul, Nat.div_div_eq_div_mul, ← Nat.pow_add]

/-- The reply `R=VVVVVVVV` CR LF is read back as the value of its eight digits. -/
theorem sscanf_R_frame (ds : List Nat) (hlen : ds.length = 8)
    (hhex : ∀ c ∈ ds, (hexval c).isSome = true) :
    sscanf_x (bytes "R=") 64 (cstr ((bytes "R=" ++ ds ++ bytes "\r\n").take 12))
      = some (hex_value ds) := by
  have hb1 : bytes "R=" = [82, 61] := rfl
  have hb2 : bytes "\r\n" = [13, 10] := rfl
  have hnz : ∀ c ∈ bytes "R=" ++ ds ++ bytes "\r\n", c ≠ 0 := by
    intro c hc
    simp only [hb1, hb2, List.mem_append, List.mem_cons, List.mem_singleton, List.mem_nil_iff,
      or_false] at hc
    rcases hc with (hc | hc) | hc
    · omega
    · exact (isHex_facts c (hhex c hc)).2.2.2.2.2
    · omega
  have hl : (bytes "R=" ++ ds ++ bytes "\r\n").length ≤ 12 := by
    simp [hb1, hb2, hlen]
  rw [List.take_of_length_le hl, cstr_of_nonzero _ hnz]
  obtain ⟨d1, d2, ds1, rfl⟩ : ∃ d1 d2 ds1, ds = d1 :: d2 :: ds1 := by
    match ds, hlen with
    | d1 :: d2 :: ds1, _ => exact ⟨d1, d2, ds1, rfl⟩
  have hval : hex_value (d1 :: d2 :: ds1) < 2 ^ 64 := by
    have := hex_value_lt (d1 :: d2 :: ds1) 0
    rw [hlen] at this
    unfold hex_value
    omega
  have hscan := scan_x_field 64 d1 d2 ds1 13 [10] (hhex d1 (by simp)) (hhex d2 (by simp))
    (fun x hx => hhex x (by simp [hx])) (by decide)
  simp only [List.cons_append] at hscan
  rw [hb1, hb2]
  simp only [List.cons_append, List.nil_append]
  simp only [sscanf_x, scan_lit, if_true, hscan, Nat.mod_eq_of_lt hval]


theorem scan_lit_append (lit rest : List Nat) : scan_lit lit (lit ++ rest) = some rest := by
  induction lit with
  | nil => cases rest <;> rfl
  | cons c cs ih => simp [scan_lit, ih]

theorem hex_value_hex_field (n v : Nat) : hex_value (hex_field n v) = v % 16 ^ n := by
  induction n generalizing v with
  | zero => simp [hex_field, hex_value, Nat.mod_one]
  | succ n ih =>
    have h := ih (v / 16)
    unfold hex_value at h ⊢
    simp only [hex_field, List.foldl_append, List.foldl_cons, List.foldl_nil, h,
      hexval_hexdigit _ (Nat.mod_lt v (by decide : 0 < 16)), Option.getD_some]
    rw [Nat.pow_succ, Nat.mul_comm (16 ^ n) 16, Nat.mod_mul]
    omega

theorem fake_parse_W_cmd (a d m : Nat) :
    fake_parse_W (cmd_W a d m) = some (a % 16 ^ 8, d % 16 ^ 8, m % 16) := by
  have e : cmd_W a d m = bytes "W:" ++ (hex_field 8 a ++ (bytes "<=" ++ (hex_field 8 d
      ++ (bytes "|" ++ (hex_field 1 m ++ bytes "\r\n"))))) := by
    simp [cmd_W]
  rw [e]
  unfold fake_parse_W
  simp only [scan_lit_append]
  rw [List.drop_left' (hex_field_length 8 a), List.take_left' (hex_field_length 8 a)]
  simp only [scan_lit_append]
  rw [List.drop_left' (hex_field_length 8 d), List.take_left' (hex_field_length 8 d)]
  simp only [scan_lit_append]
  rw [List.take_left' (hex_field_length 1 m)]
  simp [hex_value_hex_field]

theorem fake_parse_cmd_R (a : Nat) :
    fake_parse_W (cmd_R a) = none ∧ fake_parse_R (cmd_R a) = some (a % 16 ^ 8) := by
  have e : cmd_R a = bytes "R:" ++ (hex_field 8 a ++ bytes "\r\n") := by simp [cmd_R]
  constructor
  · have h : bytes "R:" = [82, 58] := rfl
    have h2 : bytes "W:" = [87, 58] := rfl
    rw [e, h]
    simp [fake_parse_W, h2, scan_lit]
  · rw [e]
    unfold fake_parse_R
    simp only [scan_lit_append]
    rw [List.take_left' (hex_field_length 8 a)]
    simp [hex_value_hex_field]

theorem merge_lanes_eq (old d m : Nat) :
    merge_lanes old d m
      = (if m.testBit 0 then byte_lane d 0 else byte_lane old 0)
        + 256 * (if m.testBit 1 then byte_lane d 1 else byte_lane old 1)
        + 65536 * (if m.testBit 2 then byte_lane d 2 else byte_lane old 2)
        + 16777216 * (if m.testBit 3 then byte_lane d 3 else byte_lane old 3) := by
  simp [merge_lanes, List.range, List.range.loop]

theorem merge_lanes_lt (old d m : Nat) : merge_lanes old d m < 2 ^ 32 := by
  rw [merge_lanes_eq]
  have h : ∀ v i, byte_lane v i < 256 := fun v i => Nat.mod_lt _ (by decide)
  have h0 := h d 0; have h1 := h d 1; have h2 := h d 2; have h3 := h d 3
  have g0 := h old 0; have g1 := h old 1; have g2 := h old 2; have g3 := h old 3
  split_ifs <;> omega

theorem echo_fake_last (mem : Nat → Nat) (cmds : List (List Nat)) (cmd : List Nat) :
    echo_fake mem (cmds ++ [cmd])
      = (fake_step (cmds.foldl (fun m c => (fake_step m c).1) mem) cmd).2 := by
  simp [echo_fake]

theorem strncmp_ack_W : strncmp ack_W (bytes "W=OK      \r\n") 12 = 0 := by decide

/-- A write to the echo-back fake, then a read of the same offset: the write
returns and the read returns the merged word, shifted down to the lane. -/
theorem fake_round_trip (rtl : RTLBridge) (mem : Nat → Nat) (reg val size : Nat)
    (hreg : reg < 2 ^ 32) (hctl : reg ≠ sim_ctrl rtl)
    (hmask : ((1 <<< size) - 1) <<< (reg % 4) < 16) :
    (rtl_write (fake_world rtl mem) reg val size).2 = true ∧
    (rtl_read (rtl_write (fake_world rtl mem) reg val size).1 reg size).2
      = some (merge_lanes (mem (reg - reg % 4)) ((val <<< (8 * (reg % 4))) % 2 ^ 32)
          (((1 <<< size) - 1) <<< (reg % 4)) >>> (8 * (reg % 4))) := by
  have hmod : reg % 2 ^ 32 = reg := Nat.mod_eq_of_lt hreg
  have hmod16 : reg % 16 ^ 8 = reg := Nat.mod_eq_of_lt hreg
  have hm : (((1 <<< size) - 1) <<< (reg % 4)) % 2 ^ 8 = ((1 <<< size) - 1) <<< (reg % 4) :=
    Nat.mod_eq_of_lt (by omega)
  have hm16 : (((1 <<< size) - 1) <<< (reg % 4)) % 16 = ((1 <<< size) - 1) <<< (reg % 4) :=
    Nat.mod_eq_of_lt hmask
  have hd16 : (val <<< (8 * (reg % 4))) % 2 ^ 32 % 16 ^ 8 = (val <<< (8 * (reg % 4))) % 2 ^ 32 :=
    Nat.mod_mod _ _
  have htext : write_text (fake_world rtl mem).rtl reg val size
      = cmd_W reg ((val <<< (8 * (reg % 4))) % 2 ^ 32) (((1 <<< size) - 1) <<< (reg % 4)) := by
    have hc : ¬ reg = sim_ctrl (fake_world rtl mem).rtl := hctl
    simp only [write_text, hmod, hc, if_false, hm, fmt_X_1_digit _ hmask]
    rfl
  have hw : rtl_write (fake_world rtl mem) reg val size
      = (qemu_set_irq
          { rtl := { rtl with reply := ack_W }, rx := [], live := true, remote := echo_fake mem,
            trace := [Event.chr_write (cmd_W reg ((val <<< (8 * (reg % 4))) % 2 ^ 32)
                        (((1 <<< size) - 1) <<< (reg % 4))), Event.wake ack_W] }
          rtl.irq_level, true) := by
    rw [rtl_write_eq _ _ _ _ (by rw [hmod]; exact fun h => hctl h.1), htext,
      cond_wait_reply _ ack_W [] rfl
        (by simp [qemu_chr_fe_write_all, inbound, fake_world, sent, echo_fake, fake_step,
              fake_parse_W_cmd])
        (by decide) (by decide)]
    simp [write_reply, strncmp_ack_W, qemu_chr_fe_write_all, fake_world]
  rw [hw]
  refine ⟨rfl, ?_⟩
  rw [rtl_read_eq, hmod]
  have hword := merge_lanes_lt (mem (reg - reg % 4)) ((val <<< (8 * (reg % 4))) % 2 ^ 32)
    (((1 <<< size) - 1) <<< (reg % 4))
  rw [cond_wait_reply _ (bytes "R=" ++ hex_field 8
        (merge_lanes (mem (reg - reg % 4)) ((val <<< (8 * (reg % 4))) % 2 ^ 32)
          (((1 <<< size) - 1) <<< (reg % 4))) ++ bytes "\r\n") [] rfl
      (by
        simp only [qemu_chr_fe_write_all, inbound, qemu_set_irq, sent_append, sent,
          List.nil_append, List.append_nil, List.singleton_append]
        rw [show ∀ (a b : List Nat), [a, b] = [a] ++ [b] from fun _ _ => rfl, echo_fake_last]
        simp only [List.foldl_cons, List.foldl_nil]
        have hmodn : reg % 4294967296 = reg := hmod
        simp [fake_step, fake_parse_W_cmd, fake_parse_cmd_R, hmod16, hm16, hd16, hmodn])
      (by simp [hex_field_length, show bytes "R=" = [82, 61] from rfl,
            show bytes "\r\n" = [13, 10] from rfl])
      (by simp [show bytes "R=" = [82, 61] from rfl])]
  simp only [read_reply, if_true, reply_str,
    sscanf_R_frame _ (hex_field_length 8 _) (hex_field_isHex 8 _), hex_value_hex_field]
  rw [Nat.mod_eq_of_lt (by simpa using hword)]

theorem lane_arith (old val size k : Nat) (hsize : size = 1 ∨ size = 2 ∨ size = 4)
    (hk : k + size ≤ 4) (hv : val < 2 ^ (8 * size)) :
    merge_lanes old ((val <<< (8 * k)) % 2 ^ 32) (((1 <<< size) - 1) <<< k) >>> (8 * k)
      = val + 2 ^ (8 * size) * (old % 2 ^ 32 / 2 ^ (8 * (k + size))) := by
  have hk3 : k ≤ 3 := by omega
  rcases hsize with rfl | rfl | rfl <;> interval_cases k <;>
    first
    | omega
    | (simp only [merge_lanes_eq, byte_lane, Nat.testBit, Nat.shiftLeft_eq,
         Nat.shiftRight_eq_div_pow]
       norm_num
       omega)

/-! ## What the operations send -/

theorem cond_wait_trace (w : World) :
    (qemu_cond_wait w).1.trace
      = w.trace ++ (if (qemu_cond_wait w).2 = true
          then [Event.wake (qemu_cond_wait w).1.rtl.reply] else []) := by
  unfold qemu_cond_wait
  by_cases h : w.live = true
  · simp only [h, if_true]
    rcases rtl_thread_run w.rtl w.rx with ⟨rtl, rest, t⟩
    cases t <;> simp
  · simp [h]

theorem reset_wait_sent (fuel : Nat) (w : World) :
    sent (rtl_reset_wait fuel w).1.trace = sent w.trace := by
  induction fuel generalizing w with
  | zero => rfl
  | succ n ih =>
    unfold rtl_reset_wait
    have hs := (cond_wait_sent w).1
    rcases hw : qemu_cond_wait w with ⟨w1, b⟩
    rw [hw] at hs
    cases b
    · exact hs
    · simp only
      split_ifs
      · rw [ih, hs]
      · exact hs

theorem read_reply_sent (reg : Nat) (r : World × Bool) :
    sent (read_reply reg r).1.trace = sent r.1.trace := by
  unfold read_reply
  split_ifs
  · split <;> simp [qemu_set_irq, qemu_log_mask, sent_append, sent]
  · rfl

theorem write_reply_sent (r : World × Bool) :
    sent (write_reply r).1.trace = sent r.1.trace := by
  unfold write_reply
  split_ifs <;> simp [qemu_set_irq, qemu_log_mask, sent_append, sent]

theorem rtl_read_sent (w : World) (addr size : Nat) :
    sent (rtl_read w addr size).1.trace = sent w.trace ++ [cmd_R (addr % 2 ^ 32)] := by
  rw [rtl_read_eq, read_reply_sent, (cond_wait_sent _).1, sent_chr_write]

theorem rtl_write_sent (w : World) (addr val size : Nat) :
    sent (rtl_write w addr val size).1.trace
      = sent w.trace ++ [if addr % 2 ^ 32 = sim_ctrl w.rtl ∧ val = 0 then cmd_STOP
          else write_text w.rtl addr val size] := by
  by_cases hs : addr % 2 ^ 32 = sim_ctrl w.rtl ∧ val = 0
  · rw [rtl_write_stop _ _ _ _ hs, if_pos hs]
    simp [qemu_system_shutdown_request, qemu_chr_fe_write_all, sent_append, sent]
  · rw [rtl_write_eq _ _ _ _ hs, if_neg hs, write_reply_sent, (cond_wait_sent _).1,
      sent_chr_write]

theorem rtl_timer_cb_sent (w : World) (now : Int) :
    sent (rtl_timer_cb w now).1.trace = sent w.trace ++ [cmd_T 1] := by
  rw [rtl_timer_cb_eq, (cond_wait_sent _).1, sent_chr_write]
  simp [timer_mod, sent_append, sent]

theorem rtl_reset_sent (w : World) (now : Int) :
    sent (rtl_reset w now).1.trace = sent w.trace ++ [cmd_RESET] := by
  rw [rtl_reset_eq]
  have h : ∀ r : World × Bool, sent (reset_done now r).1.trace = sent r.1.trace := by
    intro r
    unfold reset_done
    split_ifs <;> simp [timer_mod, sent_append, sent]
  rw [h, reset_wait_sent, sent_chr_write]
  simp [qemu_set_irq, sent_append, sent]

theorem write_text_length (rtl : RTLBridge) (addr val size : Nat) :
    (addr % 2 ^ 32 = sim_ctrl rtl → (write_text rtl addr val size).length = 12) ∧
    (addr % 2 ^ 32 ≠ sim_ctrl rtl →
      ((write_text rtl addr val size).length = 24 ∨ (write_text rtl addr val size).length = 25)
      ∧ (((1 <<< size) - 1) <<< (addr % 2 ^ 32 % 4) < 16 →
          (write_text rtl addr val size).length = 24)) := by
  obtain ⟨b1, b2, b3, b4, -, b6, -⟩ := bytes_length_facts
  constructor
  · intro h
    simp only [write_text, h, if_true, cmd_T, List.length_append, hex_field_length, b6, b4]
  · intro h
    have hl := fmt_X_1_length ((((1 <<< size) - 1) <<< (addr % 2 ^ 32 % 4)) % 2 ^ 8)
      (Nat.mod_lt _ (by decide))
    simp only [write_text, h, if_false, List.length_append, hex_field_length, b1, b2, b3, b4]
    refine ⟨by omega, fun hm => ?_⟩
    rw [Nat.mod_eq_of_lt (by omega : _ < 2 ^ 8), fmt_X_1_digit _ hm, hex_field_length]

theorem fmt_X_1_two (m : Nat) (h1 : 16 ≤ m) (h2 : m < 256) : (fmt_X 1 m).length = 2 := by
  have e1 : m % 2 ^ 32 = m := Nat.mod_eq_of_lt (by omega)
  have e3 : m / 16 / 16 = 0 := by omega
  have hm : m ≠ 0 := by omega
  have hm2 : m / 16 ≠ 0 := by omega
  unfold fmt_X
  rw [e1]
  simp [hex_sig, hm, hm2, e3]

theorem write_text_W_length (rtl : RTLBridge) (addr val size : Nat)
    (h : addr % 2 ^ 32 ≠ sim_ctrl rtl) :
    (write_text rtl addr val size).length
      = if (((1 <<< size) - 1) <<< (addr % 2 ^ 32 % 4)) % 2 ^ 8 < 16 then 24 else 25 := by
  obtain ⟨b1, b2, b3, b4, -⟩ := bytes_length_facts
  simp only [write_text, h, if_false, List.length_append, hex_field_length, b1, b2, b3, b4]
  split_ifs with hm
  · rw [fmt_X_1_digit _ hm, hex_field_length]
  · rw [fmt_X_1_two _ (Nat.le_of_not_lt hm) (Nat.mod_lt _ (by decide))]

theorem strncmp_eq_zero_iff (f lit : List Nat) (hnz : ∀ c ∈ lit, c ≠ 0) :
    strncmp f lit lit.length = 0 ↔ f.take lit.length = lit := by
  induction lit generalizing f with
  | nil => simp [strncmp]
  | cons c cs ih =>
    have hc : c ≠ 0 := hnz c (List.mem_cons_self _ _)
    have ih2 := fun g => ih g (fun x hx => hnz x (List.mem_cons_of_mem _ hx))
    cases f with
    | nil =>
      simp only [List.length_cons, strncmp, List.headD_nil, List.headD_cons, List.take_nil]
      have : (0 : Nat) ≠ c := fun h => hc h.symm
      simp only [this, ne_eq, not_false_eq_true, if_true]
      constructor
      · intro h; omega
      · intro h; cases h
    | cons a fs =>
      simp only [List.length_cons, strncmp, List.headD_cons, List.tail_cons, List.take_succ_cons,
        List.cons.injEq]
      by_cases hac : a = c
      · subst hac
        simp only [ne_eq, not_true_eq_false, if_false, hc, true_and]
        exact ih2 fs
      · simp only [ne_eq, hac, not_false_eq_true, if_true, false_and, iff_false]
        omega

theorem scan_lit_some (lit s rest : List Nat) (h : scan_lit lit s = some rest) :
    s = lit ++ rest := by
  induction lit generalizing s with
  | nil =>
    cases s <;> simp_all [scan_lit]
  | cons c cs ih =>
    cases s with
    | nil => simp [scan_lit] at h
    | cons d s =>
      simp only [scan_lit] at h
      split_ifs at h with hcd
      subst hcd
      rw [ih s h]; rfl

theorem skip_sign_eq (s : List Nat) :
    ∃ sign, (sign = [] ∨ sign = [43] ∨ sign = [45]) ∧ s = sign ++ skip_sign s := by
  unfold skip_sign
  cases s with
  | nil => exact ⟨[], Or.inl rfl, by simp⟩
  | cons a t =>
    by_cases h1 : a = 45
    · exact ⟨[45], Or.inr (Or.inr rfl), by simp [h1]⟩
    · by_cases h2 : a = 43
      · exact ⟨[43], Or.inr (Or.inl rfl), by simp [h2]⟩
      · exact ⟨[], Or.inl rfl, by simp [h1, h2]⟩

theorem skip_0x_eq (s : List Nat) :
    ∃ pfx, (pfx = [] ∨ pfx = [48, 120] ∨ pfx = [48, 88]) ∧ s = pfx ++ skip_0x s := by
  unfold skip_0x
  by_cases h : s.head? = some 48 ∧ (s.tail.head? = some 120 ∨ s.tail.head? = some 88)
  · rw [if_pos h]
    match s, h with
    | a :: b :: t, h =>
      simp only [List.head?_cons, Option.some.injEq, List.tail_cons] at h
      obtain ⟨rfl, rfl | rfl⟩ := h
      · exact ⟨[48, 120], Or.inr (Or.inl rfl), rfl⟩
      · exact ⟨[48, 88], Or.inr (Or.inr rfl), rfl⟩
    | [a], h => simp at h
    | [], h => simp at h
  · rw [if_neg h]
    exact ⟨[], Or.inl rfl, rfl⟩

theorem scan_x_some (bits : Nat) (s : List Nat) (v : Nat) (h : scan_x bits s = some v) :
    ∃ ws sign pfx d rest, s = ws ++ sign ++ pfx ++ d :: rest
      ∧ (∀ c ∈ ws, isspace c = true)
      ∧ (sign = [] ∨ sign = [43] ∨ sign = [45])
      ∧ (pfx = [] ∨ pfx = [48, 120] ∨ pfx = [48, 88])
      ∧ (hexval d).isSome = true := by
  obtain ⟨sign, hsign, e1⟩ := skip_sign_eq (s.dropWhile isspace)
  obtain ⟨pfx, hpfx, e2⟩ := skip_0x_eq (skip_sign (s.dropWhile isspace))
  have hd : ((skip_0x (skip_sign (s.dropWhile isspace))).head?.bind hexval).isSome = true := by
    by_contra hn
    simp [scan_x, hn] at h
  cases hs2 : skip_0x (skip_sign (s.dropWhile isspace)) with
  | nil => simp [hs2] at hd
  | cons d rest =>
    rw [hs2] at hd e2
    refine ⟨s.takeWhile isspace, sign, pfx, d, rest, ?_, ?_, hsign, hpfx, by simpa using hd⟩
    · rw [List.append_assoc, List.append_assoc, ← e2, ← e1, List.takeWhile_append_dropWhile]
    · intro c hc
      exact (List.mem_takeWhile_imp hc)

theorem sscanf_x_shape (lit : List Nat) (bits : Nat) (s : List Nat) (v : Nat)
    (h : sscanf_x lit bits s = some v) : starts_with_hex lit s := by
  unfold sscanf_x at h
  split at h
  · rename_i rest hr
    obtain ⟨ws, sign, pfx, d, r, e, h1, h2, h3, h4⟩ := scan_x_some bits rest v h
    refine ⟨ws, sign, pfx, d, r, ?_, h1, h2, h3, h4⟩
    rw [scan_lit_some lit s rest hr, e]
    simp
  · cases h

theorem sscanf_x_fail (lit : List Nat) (bits : Nat) (s : List Nat)
    (h : ¬ starts_with_hex lit s) : sscanf_x lit bits s = none := by
  cases hv : sscanf_x lit bits s with
  | none => rfl
  | some v => exact absurd (sscanf_x_shape lit bits s v hv) h

/-! ## The outcome of a wait -/

theorem thread_run_signalled (rtl : RTLBridge) (rx : List (List Nat)) (rtl1 : RTLBridge)
    (rest : List (List Nat)) (h : rtl_thread_run rtl rx = (rtl1, rest, Turn.signalled)) :
    rtl1.reply.length = 12 ∧ rtl1.reply.headD 0 ≠ 73 ∧
    ∃ pre, rx = pre ++ rtl1.reply :: rest := by
  induction rx generalizing rtl with
  | nil => simp [rtl_thread_run] at h
  | cons buf bs ih =>
    unfold rtl_thread_run at h
    unfold rtl_thread_iter at h
    by_cases hl : buf.length = 12
    · by_cases hi : buf.headD 0 = 73
      · simp only [hl, hi, if_true] at h
        cases hx : sscanf_x (bytes "I=") 32
            (reply_str { rtl with reply := buf }) with
        | none =>
          rw [hx] at h
          obtain ⟨h1, h2, pre, h3⟩ := ih _ h
          exact ⟨h1, h2, buf :: pre, by rw [h3]; rfl⟩
        | some x =>
          rw [hx] at h
          obtain ⟨h1, h2, pre, h3⟩ := ih _ h
          exact ⟨h1, h2, buf :: pre, by rw [h3]; rfl⟩
      · simp only [hl, hi, if_true, if_false] at h
        simp only [Prod.mk.injEq] at h
        obtain ⟨rfl, rfl, -⟩ := h
        exact ⟨hl, hi, [], rfl⟩
    · simp [hl] at h

/-- When the wait resumes, the trace has one more event, the wake-up with the
frame now in `rtl->reply`, a 12-byte frame that is not an interrupt report and
was among the pending reads; the thread is alive and the remote untouched. -/
theorem cond_wait_resumed (w : World) (h : (qemu_cond_wait w).2 = true) :
    (qemu_cond_wait w).1.trace = w.trace ++ [Event.wake (qemu_cond_wait w).1.rtl.reply]
    ∧ (qemu_cond_wait w).1.rtl.reply.length = 12
    ∧ (qemu_cond_wait w).1.rtl.reply.headD 0 ≠ 73
    ∧ (∃ pre, w.rx = pre ++ (qemu_cond_wait w).1.rtl.reply :: (qemu_cond_wait w).1.rx)
    ∧ (qemu_cond_wait w).1.live = true
    ∧ (qemu_cond_wait w).1.remote = w.remote := by
  have ht := cond_wait_trace w
  rw [if_pos h] at ht
  refine ⟨ht, ?_⟩
  unfold qemu_cond_wait at h ⊢
  by_cases hl : w.live = true
  · simp only [hl, if_true] at h ⊢
    rcases hr : rtl_thread_run w.rtl w.rx with ⟨rtl1, rest, t⟩
    rw [hr] at h
    cases t
    · obtain ⟨h1, h2, h3⟩ := thread_run_signalled _ _ _ _ hr
      exact ⟨h1, h2, h3, rfl, rfl⟩
    · simp at h
    · simp at h
  · simp [hl] at h

theorem await_trace (w : World) (cmd : List Nat) :
    (await w cmd).1.trace = w.trace ++ Event.chr_write cmd
      :: (if (await w cmd).2 = true then [Event.wake (await w cmd).1.rtl.reply] else []) := by
  unfold await
  rw [cond_wait_trace]
  simp [qemu_chr_fe_write_all]

theorem reply_str_of_length (rtl : RTLBridge) (h : rtl.reply.length = 12) :
    reply_str rtl = cstr rtl.reply := by
  unfold reply_str
  rw [List.take_of_length_le (by omega)]

theorem strncmp_W_iff (f : List Nat) (h : f.length = 12) :
    strncmp f (bytes "W=OK      \r\n") 12 = 0 ↔ f = ack_W := by
  have := strncmp_eq_zero_iff f (bytes "W=OK      \r\n") (by decide)
  rw [show (bytes "W=OK      \r\n").length = 12 from rfl, List.take_of_length_le (by omega)] at this
  exact this

theorem strncmp_T_iff (f : List Nat) :
    strncmp f (bytes "T=") 2 = 0 ↔ f.take 2 = bytes "T=" :=
  strncmp_eq_zero_iff f (bytes "T=") (by decide)

theorem rtl_write_stop_trace (w : World) (addr val size : Nat)
    (hs : addr % 2 ^ 32 = sim_ctrl w.rtl ∧ val = 0) :
    rtl_write w addr val size
      = ({ w with trace := w.trace ++ [Event.chr_write cmd_STOP, Event.shutdown_request],
                  rx := inbound w cmd_STOP }, true) := by
  rw [rtl_write_stop _ _ _ _ hs]
  simp [qemu_system_shutdown_request, qemu_chr_fe_write_all]

theorem write_text_W_head (rtl : RTLBridge) (addr val size : Nat)
    (h : addr % 2 ^ 32 ≠ sim_ctrl rtl) :
    (write_text rtl addr val size).take 2 = bytes "W:" := by
  simp only [write_text, h, if_false, List.append_assoc]
  exact List.take_left' rfl

theorem rtl_read_good (w : World) (addr size v : Nat)
    (h : (await w (cmd_R (addr % 2 ^ 32))).2 = true)
    (hv : sscanf_x (bytes "R=") 64 (reply_str (await w (cmd_R (addr % 2 ^ 32))).1.rtl) = some v) :
    rtl_read w addr size
      = (qemu_set_irq (await w (cmd_R (addr % 2 ^ 32))).1
          (await w (cmd_R (addr % 2 ^ 32))).1.rtl.irq_level,
         some (v >>> (8 * (addr % 2 ^ 32 % 4)))) := by
  rw [rtl_read_eq]
  unfold await at h hv ⊢
  simp only [read_reply, h, if_true, hv]

theorem rtl_read_bad (w : World) (addr size : Nat)
    (h : (await w (cmd_R (addr % 2 ^ 32))).2 = true)
    (hv : sscanf_x (bytes "R=") 64 (reply_str (await w (cmd_R (addr % 2 ^ 32))).1.rtl) = none) :
    rtl_read w addr size = (qemu_log_mask (await w (cmd_R (addr % 2 ^ 32))).1, some 0) := by
  rw [rtl_read_eq]
  unfold await at h hv ⊢
  simp only [read_reply, h, if_true, hv]

theorem rtl_write_checked (w : World) (addr val size : Nat)
    (hns : ¬ (addr % 2 ^ 32 = sim_ctrl w.rtl ∧ val = 0))
    (h : (await w (write_text w.rtl addr val size)).2 = true) :
    rtl_write w addr val size
      = if (await w (write_text w.rtl addr val size)).1.rtl.reply = ack_W
            ∨ (await w (write_text w.rtl addr val size)).1.rtl.reply.take 2 = bytes "T=" then
          (qemu_set_irq (await w (write_text w.rtl addr val size)).1
            (await w (write_text w.rtl addr val size)).1.rtl.irq_level, true)
        else (qemu_log_mask (await w (write_text w.rtl addr val size)).1, true) := by
  rw [rtl_write_eq _ _ _ _ hns]
  have hlen := (cond_wait_resumed _ h).2.1
  unfold await at h hlen ⊢
  simp only [write_reply, h, if_true, strncmp_W_iff _ hlen, strncmp_T_iff]

theorem dropWhile_isspace_append (ws x : List Nat) (hws : ∀ c ∈ ws, isspace c = true)
    (hx : (x.head?.map isspace) ≠ some true) : (ws ++ x).dropWhile isspace = x := by
  induction ws with
  | nil =>
    cases x with
    | nil => rfl
    | cons a t =>
      have : isspace a = false := by
        cases h : isspace a
        · rfl
        · simp [h] at hx
      simp [List.dropWhile_cons, this]
  | cons c cs ih =>
    have hc := hws c (List.mem_cons_self _ _)
    simp only [List.cons_append, List.dropWhile_cons, hc, if_true]
    exact ih (fun y hy => hws y (List.mem_cons_of_mem _ hy))

/-- A text that starts with `lit` followed by a hexadecimal number has, after
`lit`, white space and an optional sign, a hexadecimal digit. -/
theorem starts_with_hex_digit (lit s : List Nat) (h : starts_with_hex lit s) :
    ∃ r, scan_lit lit s = some r
      ∧ ((skip_sign (r.dropWhile isspace)).head?.bind hexval).isSome = true := by
  obtain ⟨ws, sign, pfx, d, rest, e, hws, hsign, hpfx, hd⟩ := h
  refine ⟨ws ++ (sign ++ (pfx ++ d :: rest)), ?_, ?_⟩
  · rw [e]
    simp only [List.append_assoc]
    exact scan_lit_append _ _
  · obtain ⟨hs, hm, hp, -⟩ := isHex_facts d hd
    have h0 : (hexval 48).isSome = true := by decide
    have hdrop : (ws ++ (sign ++ (pfx ++ d :: rest))).dropWhile isspace
        = sign ++ (pfx ++ d :: rest) := by
      apply dropWhile_isspace_append _ _ hws
      rcases hsign with rfl | rfl | rfl <;> rcases hpfx with rfl | rfl | rfl <;>
        simp [hs] <;> decide
    rw [hdrop]
    rcases hsign with rfl | rfl | rfl <;> rcases hpfx with rfl | rfl | rfl <;>
      simp [skip_sign, hm, hp, hd, h0]

/-- The wait that follows the sending of `cmd`, when the next transport read
gives a 12-byte frame that is not an interrupt report. -/
theorem await_reply (w : World) (cmd f : List Nat) (rest : List (List Nat))
    (hlive : w.live = true) (hin : inbound w cmd = f :: rest) (hlen : f.length = 12)
    (hI : f.headD 0 ≠ 73) :
    await w cmd
      = ({ w with rtl := { w.rtl with reply := f }, rx := rest,
                  trace := w.trace ++ [Event.chr_write cmd, Event.wake f] }, true) := by
  unfold await
  rw [cond_wait_reply (qemu_chr_fe_write_all w cmd) f rest hlive hin hlen hI]
  simp [qemu_chr_fe_write_all]

/-! ## The loop of `rtl_reset` -/

theorem reset_wait_trace (fuel : Nat) (w : World) :
    ∃ fs : List (List Nat), (rtl_reset_wait fuel w).1.trace = w.trace ++ fs.map Event.wake
      ∧ ((rtl_reset_wait fuel w).2 = true → fs ≠ []) := by
  induction fuel generalizing w with
  | zero => exact ⟨[], by simp [rtl_reset_wait], by simp [rtl_reset_wait]⟩
  | succ n ih =>
    unfold rtl_reset_wait
    have ht := cond_wait_trace w
    rcases hw : qemu_cond_wait w with ⟨w1, b⟩
    rw [hw] at ht
    cases b
    · exact ⟨[], by simpa using ht, by simp⟩
    · simp only [if_true] at ht
      simp only
      split_ifs
      · obtain ⟨fs, h1, -⟩ := ih w1
        exact ⟨w1.rtl.reply :: fs, by rw [h1, ht]; simp, by simp⟩
      · exact ⟨[w1.rtl.reply], by simpa using ht, by simp⟩

theorem sent_map_wake (fs : List (List Nat)) : sent (fs.map Event.wake) = [] := by
  induction fs with
  | nil => rfl
  | cons f fs ih => simpa [sent] using ih

theorem reset_start (w : World) :
    (qemu_chr_fe_write_all (qemu_set_irq { w with rtl := { w.rtl with irq_level := 0 } } 0)
        cmd_RESET)
      = { w with rtl := { w.rtl with irq_level := 0 }, rx := inbound w cmd_RESET,
                 trace := w.trace ++ [Event.set_irq 0, Event.chr_write cmd_RESET] } := by
  simp [qemu_chr_fe_write_all, qemu_set_irq, inbound, sent_append, sent]

theorem cond_wait_quiet_irq (w : World) (h : ∀ f ∈ w.rx, f.headD 0 ≠ 73) :
    (qemu_cond_wait w).1.rtl.irq_level = w.rtl.irq_level
    ∧ ∀ f ∈ (qemu_cond_wait w).1.rx, f ∈ w.rx := by
  unfold qemu_cond_wait
  by_cases hl : w.live = true
  · simp only [hl, if_true]
    cases hrx : w.rx with
    | nil => simp [rtl_thread_run]
    | cons buf rest =>
      have hi : ¬ buf.headD 0 = 73 := h buf (by rw [hrx]; exact List.mem_cons_self _ _)
      by_cases hlen : buf.length = 12
      · simp only [rtl_thread_run, rtl_thread_iter, hlen, hi, if_true, if_false]
        exact ⟨trivial, fun f hf => List.mem_cons_of_mem _ hf⟩
      · simp only [rtl_thread_run, rtl_thread_iter, hlen, if_false]
        exact ⟨trivial, fun f hf => List.mem_cons_of_mem _ hf⟩
  · simp [hl]

theorem reset_wait_quiet_irq (fuel : Nat) (w : World) (h : ∀ f ∈ w.rx, f.headD 0 ≠ 73) :
    (rtl_reset_wait fuel w).1.rtl.irq_level = w.rtl.irq_level := by
  induction fuel generalizing w with
  | zero => rfl
  | succ n ih =>
    unfold rtl_reset_wait
    obtain ⟨h1, h2⟩ := cond_wait_quiet_irq w h
    rcases hw : qemu_cond_wait w with ⟨w1, b⟩
    rw [hw] at h1 h2
    cases b
    · exact h1
    · simp only
      split_ifs
      · rw [ih w1 (fun f hf => h f (h2 f hf))]; exact h1
      · exact h1

/-! ## Single flight -/

theorem foldl_quiet (skip : List (List Nat)) (n : Nat) (l : List Event)
    (h : ∀ e ∈ l, e.quiet = true) : l.foldl (answer_step skip) n = n := by
  induction l with
  | nil => rfl
  | cons e l ih =>
    have he := h e (List.mem_cons_self _ _)
    have : answer_step skip n e = n := by
      cases e <;> simp_all [Event.quiet, answer_step]
    rw [List.foldl_cons, this]
    exact ih (fun x hx => h x (List.mem_cons_of_mem _ hx))

theorem never_two_append (skip : List (List Nat)) (n : Nat) (a b : List Event) :
    never_two skip n (a ++ b)
      ↔ never_two skip n a ∧ never_two skip (a.foldl (answer_step skip) n) b := by
  induction a generalizing n with
  | nil =>
    simp only [List.nil_append, never_two, List.foldl_nil]
    constructor
    · intro h
      refine ⟨?_, h⟩
      cases b with
      | nil => exact h
      | cons e b => exact h.1
    · exact fun h => h.2
  | cons e a ih =>
    show n ≤ 1 ∧ never_two skip (answer_step skip n e) (a ++ b) ↔ _
    rw [ih]
    simp only [never_two, List.foldl_cons, and_assoc]

theorem never_two_quiet (skip : List (List Nat)) (n : Nat) (l : List Event) (hn : n ≤ 1)
    (h : ∀ e ∈ l, e.quiet = true) : never_two skip n l := by
  induction l with
  | nil => exact hn
  | cons e l ih =>
    have he := h e (List.mem_cons_self _ _)
    have : answer_step skip n e = n := by
      cases e <;> simp_all [Event.quiet, answer_step]
    refine ⟨hn, ?_⟩
    rw [this]
    exact ih (fun x hx => h x (List.mem_cons_of_mem _ hx))

theorem never_two_wakes (skip : List (List Nat)) (n : Nat) (fs : List (List Nat)) (hn : n ≤ 1) :
    never_two skip n (fs.map Event.wake)
    ∧ (fs.map Event.wake).foldl (answer_step skip) n ≤ n
    ∧ (fs ≠ [] → (fs.map Event.wake).foldl (answer_step skip) n = 0) := by
  induction fs generalizing n with
  | nil => exact ⟨hn, Nat.le_refl _, fun h => absurd rfl h⟩
  | cons f fs ih =>
    obtain ⟨h1, h2, h3⟩ := ih (n - 1) (by omega)
    refine ⟨⟨hn, h1⟩, ?_, fun _ => ?_⟩
    · simp only [List.map_cons, List.foldl_cons, answer_step]; omega
    · simp only [List.map_cons, List.foldl_cons, answer_step]
      have : n - 1 = 0 := by omega
      rw [this] at h2 ⊢
      omega

/-- The events of one operation: quiet ones, one command, wake-ups, quiet ones. -/
theorem block_never_two (skip : List (List Nat)) (pre post : List Event) (c : List Nat)
    (fs : List (List Nat)) (hpre : ∀ e ∈ pre, e.quiet = true)
    (hpost : ∀ e ∈ post, e.quiet = true) :
    never_two skip 0 (pre ++ Event.chr_write c :: (fs.map Event.wake ++ post))
    ∧ ((c ∈ skip ∨ fs ≠ []) →
        (pre ++ Event.chr_write c :: (fs.map Event.wake ++ post)).foldl (answer_step skip) 0 = 0) := by
  have hc : answer_step skip 0 (Event.chr_write c) ≤ 1 := by
    simp only [answer_step]; split_ifs <;> omega
  obtain ⟨w1, w2, w3⟩ := never_two_wakes skip (answer_step skip 0 (Event.chr_write c)) fs hc
  constructor
  · rw [never_two_append, foldl_quiet skip 0 pre hpre]
    refine ⟨never_two_quiet skip 0 pre (by omega) hpre, by omega, ?_⟩
    rw [never_two_append]
    exact ⟨w1, never_two_quiet skip _ post (by omega) hpost⟩
  · intro h
    rw [List.foldl_append, foldl_quiet skip 0 pre hpre, List.foldl_cons, List.foldl_append,
      foldl_quiet skip _ post hpost]
    rcases h with h | h
    · have : answer_step skip 0 (Event.chr_write c) = 0 := by simp [answer_step, h]
      rw [this] at w2 ⊢
      omega
    · exact w3 h

theorem never_two_prefix (skip : List (List Nat)) (n : Nat) (t p : List Event)
    (h : never_two skip n t) (hp : p <+: t) : p.foldl (answer_step skip) n ≤ 1 := by
  induction t generalizing n p with
  | nil =>
    have : p = [] := List.prefix_nil.mp hp
    subst this
    exact h
  | cons e t ih =>
    cases p with
    | nil => exact h.1
    | cons e1 p =>
      obtain ⟨rfl, hp1⟩ := List.cons_prefix_cons.mp hp
      exact ih _ p h.2 hp1

theorem cmd_ne_STOP (rtl : RTLBridge) (addr val size : Nat) :
    cmd_R addr ≠ cmd_STOP ∧ write_text rtl addr val size ≠ cmd_STOP ∧ cmd_RESET ≠ cmd_STOP
    ∧ cmd_T 1 ≠ cmd_STOP := by
  have hx : cmd_STOP.headD 0 = 88 := by decide
  refine ⟨fun h => ?_, fun h => ?_, by decide, by decide⟩
  · have : (cmd_R addr).headD 0 = 82 := rfl
    rw [h, hx] at this
    omega
  · have : (write_text rtl addr val size).headD 0 = 84
        ∨ (write_text rtl addr val size).headD 0 = 87 := by
      unfold write_text
      split_ifs
      · exact Or.inl rfl
      · exact Or.inr rfl
    rw [h, hx] at this
    omega

theorem read_reply_trace (reg : Nat) (r : World × Bool) :
    ∃ post, (read_reply reg r).1.trace = r.1.trace ++ post ∧ (∀ e ∈ post, e.quiet = true)
      ∧ ((read_reply reg r).2.isSome = r.2) := by
  unfold read_reply
  by_cases h : r.2 = true
  · simp only [h, if_true]
    split
    · exact ⟨[Event.set_irq r.1.rtl.irq_level], rfl, by simp [Event.quiet], rfl⟩
    · exact ⟨[Event.log_guest_error], rfl, by simp [Event.quiet], rfl⟩
  · simp only [h, if_false]
    exact ⟨[], by simp, by simp, by simp [h]⟩

theorem write_reply_trace (r : World × Bool) :
    ∃ post, (write_reply r).1.trace = r.1.trace ++ post ∧ (∀ e ∈ post, e.quiet = true)
      ∧ ((write_reply r).2 = r.2) := by
  unfold write_reply
  by_cases h : r.2 = true
  · simp only [h, if_true]
    split_ifs
    · exact ⟨[Event.set_irq r.1.rtl.irq_level], rfl, by simp [Event.quiet], rfl⟩
    · exact ⟨[Event.log_guest_error], rfl, by simp [Event.quiet], rfl⟩
  · simp only [h, if_false]
    exact ⟨[], by simp, by simp, by simp [h]⟩

theorem await_shape (w : World) (cmd : List Nat) :
    ∃ fs : List (List Nat), (await w cmd).1.trace
        = w.trace ++ Event.chr_write cmd :: fs.map Event.wake
      ∧ ((await w cmd).2 = true → fs ≠ []) := by
  have h := await_trace w cmd
  by_cases hb : (await w cmd).2 = true
  · rw [if_pos hb] at h
    exact ⟨[(await w cmd).1.rtl.reply], h, by simp⟩
  · rw [if_neg hb] at h
    exact ⟨[], h, fun h2 => absurd h2 hb⟩

/-- The events of one operation: quiet events, one command, the wake-ups
taken for it, quiet events; the command is `X:STOP` for a stop only, and any
other operation that returns has taken a wake-up. -/
theorem exec_shape (w : World) (op : Op) :
    ∃ pre c fs post, (exec w op).1.trace
        = w.trace ++ (pre ++ Event.chr_write c :: (List.map Event.wake fs ++ post))
      ∧ (∀ e ∈ pre, e.quiet = true) ∧ (∀ e ∈ post, e.quiet = true)
      ∧ (is_stop w op → c = cmd_STOP)
      ∧ (¬ is_stop w op → c ≠ cmd_STOP ∧ ((exec w op).2 = true → fs ≠ [])) := by
  cases op with
  | read addr size =>
    obtain ⟨fs, h1, h2⟩ := await_shape w (cmd_R (addr % 2 ^ 32))
    obtain ⟨post, p1, p2, p3⟩ := read_reply_trace (addr % 2 ^ 32) (await w (cmd_R (addr % 2 ^ 32)))
    refine ⟨[], cmd_R (addr % 2 ^ 32), fs, post, ?_, by simp, p2, fun h => h.elim,
      fun _ => ⟨(cmd_ne_STOP w.rtl _ 0 0).1, fun hr => h2 ?_⟩⟩
    · simp only [exec, rtl_read_eq]
      unfold await at p1 h1
      rw [p1, h1]
      simp
    · simp only [exec, rtl_read_eq] at hr
      unfold await at p3 ⊢
      rw [← p3]; exact hr
  | write addr val size =>
    by_cases hs : addr % 2 ^ 32 = sim_ctrl w.rtl ∧ val = 0
    · refine ⟨[], cmd_STOP, [], [Event.shutdown_request], ?_, by simp, by simp [Event.quiet],
        fun _ => rfl, fun h => absurd hs h⟩
      simp only [exec, rtl_write_stop_trace w addr val size hs]
      simp
    · obtain ⟨fs, h1, h2⟩ := await_shape w (write_text w.rtl addr val size)
      obtain ⟨post, p1, p2, p3⟩ := write_reply_trace (await w (write_text w.rtl addr val size))
      refine ⟨[], write_text w.rtl addr val size, fs, post, ?_, by simp, p2,
        fun h => absurd h hs, fun _ => ⟨(cmd_ne_STOP w.rtl addr val size).2.1, fun hr => h2 ?_⟩⟩
      · simp only [exec, rtl_write_eq w addr val size hs]
        unfold await at p1 h1
        rw [p1, h1]
        simp
      · simp only [exec, rtl_write_eq w addr val size hs] at hr
        unfold await at p3 ⊢
        rw [← p3]; exact hr
  | reset now =>
    obtain ⟨fs, h1, h2⟩ := reset_wait_trace ((inbound w cmd_RESET).length + 1)
      { w with rtl := { w.rtl with irq_level := 0 }, rx := inbound w cmd_RESET,
               trace := w.trace ++ [Event.set_irq 0, Event.chr_write cmd_RESET] }
    simp only [exec, rtl_reset_eq, reset_start]
    generalize rtl_reset_wait ((inbound w cmd_RESET).length + 1)
      { w with rtl := { w.rtl with irq_level := 0 }, rx := inbound w cmd_RESET,
               trace := w.trace ++ [Event.set_irq 0, Event.chr_write cmd_RESET] } = r at h1 h2
    rcases r with ⟨w1, b⟩
    simp only at h1 h2
    cases b
    · exact ⟨[Event.set_irq 0], cmd_RESET, fs, [], by simp [reset_done, h1],
        by simp [Event.quiet], by simp, fun h => h.elim,
        fun _ => ⟨(cmd_ne_STOP w.rtl 0 0 0).2.2.1, by simp [reset_done]⟩⟩
    · exact ⟨[Event.set_irq 0], cmd_RESET, fs, [Event.timer_mod (now + (w1.rtl.sync : Int))],
        by simp [reset_done, timer_mod, h1], by simp [Event.quiet], by simp [Event.quiet],
        fun h => h.elim, fun _ => ⟨(cmd_ne_STOP w.rtl 0 0 0).2.2.1, fun _ => h2 rfl⟩⟩
  | timer_cb now =>
    obtain ⟨fs, h1, h2⟩ := await_shape (timer_mod w (now + (w.rtl.sync : Int))) (cmd_T 1)
    refine ⟨[Event.timer_mod (now + (w.rtl.sync : Int))], cmd_T 1, fs, [], ?_,
      by simp [Event.quiet], by simp, fun h => h.elim,
      fun _ => ⟨(cmd_ne_STOP w.rtl 0 0 0).2.2.2, fun hr => h2 ?_⟩⟩
    · simp only [exec, rtl_timer_cb_eq]
      unfold await at h1
      rw [h1]
      simp [timer_mod]
    · simp only [exec, rtl_timer_cb_eq] at hr
      exact hr

theorem sent_quiet (l : List Event) (h : ∀ e ∈ l, e.quiet = true) : sent l = [] := by
  induction l with
  | nil => rfl
  | cons e l ih =>
    have he := h e (List.mem_cons_self _ _)
    have hl := ih (fun x hx => h x (List.mem_cons_of_mem _ hx))
    cases e <;> simp_all [Event.quiet, sent]

theorem run_never_two (ops : List Op) (w : World) (h1 : never_two [cmd_STOP] 0 w.trace)
    (h2 : w.trace.foldl (answer_step [cmd_STOP]) 0 = 0) :
    never_two [cmd_STOP] 0 (run w ops).trace := by
  induction ops generalizing w with
  | nil => exact h1
  | cons op ops ih =>
    obtain ⟨pre, c, fs, post, ht, hpre, hpost, hs, hns⟩ := exec_shape w op
    obtain ⟨b1, b2⟩ := block_never_two [cmd_STOP] pre post c fs hpre hpost
    have hn : never_two [cmd_STOP] 0 (exec w op).1.trace := by
      rw [ht, never_two_append, h2]
      exact ⟨h1, b1⟩
    unfold run
    split_ifs with hr
    · apply ih _ hn
      rw [ht, List.foldl_append, h2]
      apply b2
      by_cases hst : is_stop w op
      · exact Or.inl (by rw [hs hst]; simp)
      · exact Or.inr ((hns hst).2 hr)
    · exact hn

/-- The fuel `rtl_reset` gives to its loop is never used up: any two amounts
of fuel above the number of pending reads give the same outcome. -/
theorem reset_wait_fuel (n : Nat) (w : World) (m : Nat) (hn : w.rx.length < n)
    (hm : w.rx.length < m) : rtl_reset_wait n w = rtl_reset_wait m w := by
  induction n generalizing w m with
  | zero => omega
  | succ n ih =>
    obtain ⟨m1, rfl⟩ : ∃ m1, m = m1 + 1 := ⟨m - 1, by omega⟩
    unfold rtl_reset_wait
    rcases hw : qemu_cond_wait w with ⟨w1, b⟩
    cases b
    · rfl
    · have hr := cond_wait_resumed w (by rw [hw])
      rw [hw] at hr
      obtain ⟨-, -, -, ⟨pre, hp⟩, -⟩ := hr
      simp only at hp
      have hlt : w1.rx.length < w.rx.length := by
        rw [hp]; simp; omega
      simp only
      split_ifs
      · exact ih w1 m1 (by omega) (by omega)
      · rfl

/-! ## The receiving thread and the relay -/

theorem thread_iter_short (rtl : RTLBridge) (buf : List Nat) (h : buf.length ≠ 12) :
    rtl_thread_iter rtl buf = (rtl, Turn.exited) := by
  simp [rtl_thread_iter, h]

theorem thread_iter_report (rtl : RTLBridge) (buf : List Nat) (level : Nat)
    (h : irq_report buf level) :
    rtl_thread_iter rtl buf
      = ({ rtl with reply := buf, irq_level := level, pipes := rtl.pipes ++ [level] },
         Turn.silent) := by
  obtain ⟨hl, hi, hp⟩ := h
  have hi2 : buf.head?.getD 0 = 73 := by simpa [List.headD_eq_head?_getD] using hi
  have hs : reply_str { rtl with reply := buf } = cstr buf :=
    reply_str_of_length { rtl with reply := buf } hl
  simp only [rtl_thread_iter, hl, if_true, List.headD_eq_head?_getD, hi2, hs, hp]

theorem thread_iter_reply (rtl : RTLBridge) (buf : List Nat) (hl : buf.length = 12)
    (hi : buf.headD 0 ≠ 73) :
    rtl_thread_iter rtl buf = ({ rtl with reply := buf }, Turn.signalled) := by
  have hi2 : ¬ buf.head?.getD 0 = 73 := by simpa [List.headD_eq_head?_getD] using hi
  simp [rtl_thread_iter, hl, hi2]

theorem cond_wait_short (w : World) (buf : List Nat) (rest : List (List Nat))
    (hlive : w.live = true) (hrx : w.rx = buf :: rest) (h : buf.length ≠ 12) :
    qemu_cond_wait w = ({ w with rx := rest, live := false }, false) := by
  simp [qemu_cond_wait, hlive, hrx, rtl_thread_run, thread_iter_short _ _ h]

/-- The wait, when the thread reads an interrupt report and then a reply. -/
theorem cond_wait_report_reply (w : World) (fi fr : List Nat) (level : Nat)
    (rest : List (List Nat)) (hlive : w.live = true) (hrx : w.rx = fi :: fr :: rest)
    (hi : irq_report fi level) (hl : fr.length = 12) (hr : fr.headD 0 ≠ 73) :
    qemu_cond_wait w
      = ({ w with rtl := { w.rtl with irq_level := level, pipes := w.rtl.pipes ++ [level],
                                      reply := fr },
                  rx := rest, trace := w.trace ++ [Event.wake fr] }, true) := by
  simp [qemu_cond_wait, hlive, hrx, rtl_thread_run, thread_iter_report _ _ _ hi,
    thread_iter_reply _ _ hl hr]

/-- The wait, when the thread reads an interrupt report and nothing more. -/
theorem cond_wait_report_only (w : World) (fi : List Nat) (level : Nat)
    (hlive : w.live = true) (hrx : w.rx = [fi]) (hi : irq_report fi level) :
    qemu_cond_wait w
      = ({ w with rtl := { w.rtl with irq_level := level, pipes := w.rtl.pipes ++ [level],
                                      reply := fi },
                  rx := [] }, false) := by
  simp [qemu_cond_wait, hlive, hrx, rtl_thread_run, thread_iter_report _ _ _ hi]

theorem reported_report (frame : List Nat) (level : Nat) (acts : List RelayAct)
    (h : irq_report frame level) :
    reported (RelayAct.report frame :: acts) = level :: reported acts := by
  simp [reported, h.2.2]

/-- The relay as a queue: the handler runs take the levels in the order in
which they were written, those already in the pipe first. -/
theorem relay_run_queue (acts : List RelayAct) (w : World)
    (hwf : ∀ frame, RelayAct.report frame ∈ acts → ∃ level, irq_report frame level)
    (hord : ∀ p, p <+: acts → notify_count p ≤ w.rtl.pipes.length + report_count p) :
    (relay_run w acts).trace
      = w.trace ++ ((w.rtl.pipes ++ reported acts).take (notify_count acts)).map Event.set_irq
    ∧ (relay_run w acts).rtl.pipes
      = (w.rtl.pipes ++ reported acts).drop (notify_count acts) := by
  induction acts generalizing w with
  | nil => simp [relay_run, notify_count, reported]
  | cons a acts ih =>
    have hwf1 : ∀ frame, RelayAct.report frame ∈ acts → ∃ level, irq_report frame level :=
      fun f hf => hwf f (List.mem_cons_of_mem _ hf)
    cases a with
    | report frame =>
      obtain ⟨level, hl⟩ := hwf frame (List.mem_cons_self _ _)
      have hstep : relay_step w (RelayAct.report frame)
          = { w with rtl := { w.rtl with reply := frame, irq_level := level,
                                          pipes := w.rtl.pipes ++ [level] } } := by
        simp [relay_step, thread_iter_report _ _ _ hl]
      have h1 := ih (relay_step w (RelayAct.report frame)) hwf1 (by
        intro p hp
        have := hord (RelayAct.report frame :: p) (List.cons_prefix_cons.mpr ⟨rfl, hp⟩)
        rw [hstep]
        simp only [notify_count, report_count, List.length_append, List.length_singleton] at this ⊢
        omega)
      rw [hstep] at h1
      simp only [relay_run, List.foldl_cons] at h1 ⊢
      rw [hstep, reported_report frame level acts hl]
      simpa [notify_count] using h1
    | notify =>
      have h0 := hord [RelayAct.notify] (List.cons_prefix_cons.mpr ⟨rfl, List.nil_prefix⟩)
      simp only [notify_count, report_count] at h0
      cases hp : w.rtl.pipes with
      | nil => rw [hp] at h0; simp at h0
      | cons x q =>
        have hstep : relay_step w RelayAct.notify
            = { w with rtl := { w.rtl with irq_level := x, pipes := q },
                       trace := w.trace ++ [Event.set_irq x] } := by
          simp [relay_step, rtl_incoming_notification, hp, qemu_set_irq]
        have h1 := ih (relay_step w RelayAct.notify) hwf1 (by
          intro p hpre
          have := hord (RelayAct.notify :: p) (List.cons_prefix_cons.mpr ⟨rfl, hpre⟩)
          rw [hstep]
          rw [hp] at this
          simp only [notify_count, report_count, List.length_cons] at this ⊢
          omega)
        rw [hstep] at h1
        simp only [relay_run, List.foldl_cons] at h1 ⊢
        rw [hstep]
        simpa [notify_count, reported] using h1

theorem reported_length (acts : List RelayAct)
    (hwf : ∀ frame, RelayAct.report frame ∈ acts → ∃ level, irq_report frame level) :
    (reported acts).length = report_count acts := by
  induction acts with
  | nil => rfl
  | cons a acts ih =>
    have hwf1 : ∀ frame, RelayAct.report frame ∈ acts → ∃ level, irq_report frame level :=
      fun f hf => hwf f (List.mem_cons_of_mem _ hf)
    cases a with
    | report frame =>
      obtain ⟨level, hl⟩ := hwf frame (List.mem_cons_self _ _)
      rw [reported_report frame level acts hl]
      simp [report_count, ih hwf1]
    | notify => simpa [reported, report_count] using ih hwf1

/-! ## The write path of the pseudo-terminal -/

/-- What `pty_write` does with a symbol value `n ≥ 0`, in arithmetic terms. -/
theorem pty_write_nat (fd : Int) (n : Nat) (hfd : 0 ≤ fd) :
    pty_write fd (n : Int)
      = if n % 2 = 1 then []
        else if n / 2 < 0x100 then [0xFF, 0x00, if n / 2 = 0 then 0x00 else 0x15]
        else if n / 2 % 256 = 0xFF then [0xFF, 0xFF] else [n / 2 % 256] := by
  have h1 : n &&& 1 = n % 2 := Nat.and_pow_two_sub_one_eq_mod n 1
  have h2 : n >>> 1 = n / 2 := by rw [Nat.shiftRight_eq_div_pow, Nat.pow_one]
  have h3 : n / 2 &&& 0xFF = n / 2 % 256 := Nat.and_pow_two_sub_one_eq_mod (n / 2) 8
  have hn : ¬ ((n : Int) < 0) := by omega
  have hf : ¬ (fd < 0) := by omega
  simp only [pty_write, hn, hf, if_false, Int.toNat_ofNat, h1, h2, h3]
  by_cases hodd : n % 2 = 1
  · simp [hodd]
  · have h0 : n % 2 = 0 := by omega
    simp only [h0, ne_eq, not_true_eq_false, if_false]
    by_cases hsmall : n / 2 < 0x100
    · simp only [hsmall, if_true]
      by_cases hz : n / 2 = 0 <;> simp [hz]
    · simp only [hsmall, if_false]
      by_cases hff : n / 2 % 256 = 0xFF <;> simp [hff]

/-! ## The read path of the pseudo-terminal -/

theorem pty_reads_append (s : PtyLine) (a b : List Poll) :
    pty_reads s (a ++ b)
      = ((pty_reads (pty_reads s a).1 b).1, (pty_reads s a).2 ++ (pty_reads (pty_reads s a).1 b).2) := by
  induction a generalizing s with
  | nil => simp [pty_reads]
  | cons p a ih => simp [pty_reads, ih]

/-- A call of `pty_read` with the line connected as before and a byte ready. -/
theorem pty_read_byte (s : PtyLine) (p : Poll) (x : Nat) (rest : List Nat) (hfd : 0 ≤ s.fd)
    (hold : s.line_old = true) (hup : p.hup = false) (hn : 0 < p.n) (hin : p.pollin = true)
    (hpend : s.pending = x :: rest) :
    pty_read s p = ({ s with pending := rest }, (x : Int)) := by
  have hf : ¬ s.fd < 0 := by omega
  simp [pty_read, hf, hold, hup, hn, hin, hpend]

/-- Successive calls with the line connected and a byte ready each time hand
the bytes over one by one, unchanged. -/
theorem pty_reads_bytes (bs rest : List Nat) (s : PtyLine) (ps : List Poll) (hfd : 0 ≤ s.fd)
    (hold : s.line_old = true) (hlen : ps.length = bs.length)
    (hps : ∀ p ∈ ps, p.hup = false ∧ 0 < p.n ∧ p.pollin = true)
    (hpend : s.pending = bs ++ rest) :
    pty_reads s ps = ({ s with pending := rest }, List.map (fun (b : Nat) => (b : Int)) bs) := by
  induction bs generalizing s ps with
  | nil =>
    have : ps = [] := List.length_eq_zero.mp hlen
    subst this
    simp only [List.nil_append] at hpend
    simp [pty_reads, ← hpend]
  | cons b bs ih =>
    cases ps with
    | nil => simp at hlen
    | cons p ps =>
      obtain ⟨h1, h2, h3⟩ := hps p (List.mem_cons_self _ _)
      have hstep := pty_read_byte s p b (bs ++ rest) hfd hold h1 h2 h3 hpend
      have hrec := ih { s with pending := bs ++ rest } ps hfd hold
        (by simpa using hlen) (fun q hq => hps q (List.mem_cons_of_mem _ hq)) rfl
      simp only [pty_reads, hstep, hrec, List.map_cons]

/-- A call of `pty_read` on a connection edge: the edge is recorded, the symbol
of the edge returned, and no byte taken. -/
theorem pty_read_edge (s : PtyLine) (p : Poll) (hfd : 0 ≤ s.fd) (h : s.line_old = p.hup) :
    pty_read s p
      = ({ s with line_old := !p.hup }, if p.hup = false then 0x100 else 0x104) := by
  have hf : ¬ s.fd < 0 := by omega
  cases hh : p.hup <;> simp [pty_read, hf, h, hh]

/-- A call of `pty_read` without a connection edge: nothing, or the next byte. -/
theorem pty_read_steady (s : PtyLine) (p : Poll) (hfd : 0 ≤ s.fd) (h : s.line_old = !p.hup) :
    pty_read s p = (s, -1)
    ∨ ∃ x rest, s.pending = x :: rest ∧ pty_read s p = ({ s with pending := rest }, (x : Int)) := by
  have hf : ¬ s.fd < 0 := by omega
  have hne : ¬ ((!p.hup) ≠ s.line_old) := by simp [h]
  simp only [pty_read, hf, if_false, hne]
  by_cases hr : 0 < p.n ∧ p.pollin = true
  · simp only [hr, and_self, if_true]
    cases hp : s.pending with
    | nil => exact Or.inl rfl
    | cons x rest => exact Or.inr ⟨x, rest, rfl, by simp [hp]⟩
  · simp only [hr, if_false]
    exact Or.inl trivial

/-- Calls of `pty_read` while the line stays connected: the values returned
that are not -1 are the first bytes of the transport, in order. -/
theorem pty_reads_connected (ps : List Poll) (s : PtyLine) (hfd : 0 ≤ s.fd)
    (hold : s.line_old = true) (hps : ∀ p ∈ ps, p.hup = false) :
    ∃ k, pty_reads s ps
        = ({ s with pending := s.pending.drop k }, (pty_reads s ps).2)
      ∧ (pty_reads s ps).2.filter (fun o => decide (o ≠ -1))
          = List.map (fun (b : Nat) => (b : Int)) (s.pending.take k)
      ∧ ∀ o ∈ (pty_reads s ps).2, o = -1 ∨ ∃ b ∈ s.pending, o = (b : Int) := by
  induction ps generalizing s with
  | nil => exact ⟨0, by simp [pty_reads], by simp [pty_reads], by simp [pty_reads]⟩
  | cons p ps ih =>
    have hp := hps p (List.mem_cons_self _ _)
    have hps1 : ∀ q ∈ ps, q.hup = false := fun q hq => hps q (List.mem_cons_of_mem _ hq)
    rcases pty_read_steady s p hfd (by simp [hold, hp]) with h | ⟨x, rest, hx, h⟩
    · obtain ⟨k, h1, h2, h3⟩ := ih s hfd hold hps1
      refine ⟨k, ?_, ?_, ?_⟩
      · simp only [pty_reads, h]
        rw [h1]
      · simp only [pty_reads, h]
        simpa using h2
      · intro o ho
        simp only [pty_reads, h, List.mem_cons] at ho
        rcases ho with rfl | ho
        · exact Or.inl rfl
        · exact h3 o ho
    · obtain ⟨k, h1, h2, h3⟩ := ih { s with pending := rest } hfd hold hps1
      refine ⟨k + 1, ?_, ?_, ?_⟩
      · simp only [pty_reads, h]
        rw [h1, hx]
        simp
      · simp only [pty_reads, h, hx]
        have hxne : (x : Int) ≠ -1 := by omega
        simp only [List.filter_cons, hxne, ne_eq, not_false_eq_true, decide_True, if_true,
          List.take_succ_cons, List.map_cons]
        simpa using h2
      · intro o ho
        simp only [pty_reads, h, List.mem_cons] at ho
        rcases ho with rfl | ho
        · exact Or.inr ⟨x, by simp [hx], rfl⟩
        · rcases h3 o ho with h4 | ⟨b, hb, h4⟩
          · exact Or.inl h4
          · exact Or.inr ⟨b, by rw [hx]; exact List.mem_cons_of_mem _ hb, h4⟩

theorem serial_loop_append (a b : List Nat) (st : Reader) :
    serial_loop st (a ++ b)
      = if (serial_loop st a).2 = true then serial_loop (serial_loop st a).1 b
        else serial_loop st a := by
  induction a generalizing st with
  | nil => simp [serial_loop]
  | cons c cs ih =>
    by_cases h1 : st.e = 0 ∧ c = 0xFF
    · simp only [List.cons_append, serial_loop, if_pos h1]
      exact ih _
    · by_cases h2 : st.e = 1 ∧ c = 0xFF
      · simp only [List.cons_append, serial_loop, if_neg h1, if_pos h2]
        exact ih _
      · by_cases h3 : st.e = 1
        · simp only [List.cons_append, serial_loop, if_neg h1, if_neg h2, if_pos h3]
          exact ih _
        · by_cases h4 : st.e = 2
          · by_cases h5 : st.lines = 0
            · simp only [List.cons_append, serial_loop, if_neg h1, if_neg h2, if_neg h3,
                if_pos h4, if_pos h5]
              exact ih _
            · simp only [List.cons_append, serial_loop, if_neg h1, if_neg h2, if_neg h3,
                if_pos h4, if_neg h5]
              simp
          · simp only [List.cons_append, serial_loop, if_neg h1, if_neg h2, if_neg h3,
              if_neg h4]
            exact ih _

theorem serial_reads_flatten (chunks : List (List Nat)) (st : Reader)
    (hne : ∀ c ∈ chunks, c ≠ []) : serial_reads st chunks = serial_loop st chunks.flatten := by
  induction chunks generalizing st with
  | nil => rfl
  | cons c cs ih =>
    have hc : serial_read st c = serial_loop st c := by
      have h0 : c ≠ [] := hne c (List.mem_cons_self _ _)
      have h1 : ¬ c.length ≤ 0 := by
        cases c with
        | nil => exact absurd rfl h0
        | cons x xs => simp
      simp only [serial_read, if_neg h1]
    simp only [serial_reads, List.flatten_cons, serial_loop_append, hc]
    by_cases h : (serial_loop st c).2 = true
    · simp only [if_pos h]
      exact ih _ (fun x hx => hne x (List.mem_cons_of_mem _ hx))
    · simp only [if_neg h]

theorem serial_store_e (st : Reader) (c : Nat) : (serial_store st c).e = st.e := by
  simp only [serial_store]
  split_ifs <;> rfl

theorem serial_store_output (st : Reader) (c : Nat) :
    (serial_store st c).output = st.output ++ [c] := by
  simp only [serial_store, Reader.output]
  split_ifs <;> simp

theorem serial_loop_literal (st : Reader) (b : Nat) (rest : List Nat) (he : st.e = 0) :
    serial_loop st ((if b = 0xFF then [0xFF, 0xFF] else [b]) ++ rest)
      = serial_loop (serial_store st b) rest := by
  have hst : ({ st with e := 0 } : Reader) = st := by
    cases st
    simp only [Reader.mk.injEq, and_true] at he ⊢
    exact he.symm
  by_cases hb : b = 0xFF
  · subst hb
    simp only [if_true, List.cons_append, List.nil_append, serial_loop, he, true_and]
    simp [hst]
  · have h1 : ¬ (st.e = 0 ∧ b = 0xFF) := fun h => hb h.2
    have h2 : ¬ (st.e = 1 ∧ b = 0xFF) := fun h => hb h.2
    have h3 : ¬ st.e = 1 := by omega
    have h4 : ¬ st.e = 2 := by omega
    simp only [if_neg hb, List.cons_append, List.nil_append, serial_loop, if_neg h1, if_neg h2,
      if_neg h3, if_neg h4]

theorem serial_loop_escape (st : Reader) (x : Nat) (he : st.e = 0) :
    serial_loop st [0xFF, 0x00, x] = (st, decide (st.lines = 0)) := by
  obtain ⟨e, lines, outbuf, records⟩ := st
  simp only at he
  subst he
  by_cases hl : lines = 0
  · simp [serial_loop, hl]
  · simp [serial_loop, hl]

theorem serial_loop_literals (fd : Int) (hfd : 0 ≤ fd) (ds : List Int) (st : Reader)
    (he : st.e = 0) (hlit : ∀ d ∈ ds, 0 ≤ d ∧ d % 2 = 0 ∧ 0x100 ≤ d / 2) :
    (serial_loop st (ds.map (pty_write fd)).flatten).2 = true
    ∧ (serial_loop st (ds.map (pty_write fd)).flatten).1.e = 0
    ∧ (serial_loop st (ds.map (pty_write fd)).flatten).1.output
        = st.output ++ List.map (fun (d : Int) => (d / 2 % 256).toNat) ds := by
  induction ds generalizing st with
  | nil => simp [serial_loop, he]
  | cons d ds ih =>
    obtain ⟨hd0, hd1, hd2⟩ := hlit d (List.mem_cons_self _ _)
    obtain ⟨n, rfl⟩ := Int.eq_ofNat_of_zero_le hd0
    have hodd : ¬ n % 2 = 1 := by omega
    have hbig : ¬ n / 2 < 0x100 := by omega
    have hb : ((n : Int) / 2 % 256).toNat = n / 2 % 256 := by omega
    have hw : pty_write fd (n : Int)
        = if n / 2 % 256 = 0xFF then [0xFF, 0xFF] else [n / 2 % 256] := by
      rw [pty_write_nat fd n hfd]
      simp only [hodd, hbig, if_false]
    have ih2 := ih (serial_store st (n / 2 % 256)) (by rw [serial_store_e]; exact he)
      (fun x hx => hlit x (List.mem_cons_of_mem _ hx))
    simp only [List.map_cons, List.flatten_cons, hw, serial_loop_literal st _ _ he, hb]
    refine ⟨ih2.1, ih2.2.1, ?_⟩
    rw [ih2.2.2, serial_store_output]
    simp

/-! ## Waits with nothing pending behind the reply -/

theorem thread_run_reports (pre : List (List Nat)) (rtl : RTLBridge) (f : List Nat)
    (hpre : ∀ p ∈ pre, ∃ L, irq_report p L) (hlen : f.length = 12) (hI : f.headD 0 ≠ 73) :
    ∃ rtl1, rtl_thread_run rtl (pre ++ [f]) = (rtl1, [], Turn.signalled)
      ∧ rtl1.reply = f ∧ rtl1.irq_level = level_after rtl.irq_level pre := by
  induction pre generalizing rtl with
  | nil =>
    refine ⟨{ rtl with reply := f }, ?_, rfl, rfl⟩
    simp only [List.nil_append, rtl_thread_run, thread_iter_reply rtl f hlen hI]
  | cons p pre ih =>
    obtain ⟨L, hL⟩ := hpre p (List.mem_cons_self _ _)
    obtain ⟨rtl1, h1, h2, h3⟩ :=
      ih { rtl with reply := p, irq_level := L, pipes := rtl.pipes ++ [L] }
        (fun q hq => hpre q (List.mem_cons_of_mem _ hq))
    refine ⟨rtl1, ?_, h2, ?_⟩
    · simp only [List.cons_append, rtl_thread_run, thread_iter_report rtl p L hL]
      exact h1
    · rw [h3]
      simp only [level_after, hL.2.2, Option.getD_some]

/-- The wait that follows the sending of `cmd`, when the thread reads interrupt
reports, then a reply, and nothing more. -/
theorem await_reports_reply (w : World) (cmd : List Nat) (pre : List (List Nat))
    (f : List Nat) (hlive : w.live = true) (hin : inbound w cmd = pre ++ [f])
    (hpre : ∀ p ∈ pre, ∃ L, irq_report p L) (hlen : f.length = 12) (hI : f.headD 0 ≠ 73) :
    (await w cmd).2 = true ∧ (await w cmd).1.rtl.reply = f
    ∧ (await w cmd).1.rtl.irq_level = level_after w.rtl.irq_level pre
    ∧ (await w cmd).1.rx = [] := by
  obtain ⟨rtl1, h1, h2, h3⟩ := thread_run_reports pre w.rtl f hpre hlen hI
  have hl : (qemu_chr_fe_write_all w cmd).live = true := hlive
  have hr : rtl_thread_run (qemu_chr_fe_write_all w cmd).rtl (qemu_chr_fe_write_all w cmd).rx
      = (rtl1, [], Turn.signalled) := by
    rw [← h1, ← hin]
    rfl
  unfold await
  simp only [qemu_cond_wait, hl, if_true, hr]
  exact ⟨trivial, h2, h3, trivial⟩

/-- C1: for a register offset `reg` other than the control register, a size
1, 2 or 4 that stays inside the word of `reg`, and any value, `rtl_write`
transmits the one command `W:` whose address field is `reg`, whose data field
is `(val << 8k) mod 2^32` and whose mask field is `((1 << size) - 1) << k`,
`k = reg mod 4`; that mask fits the single hexadecimal digit of the field. -/
theorem rtl_write_byte_lanes (w : World) (reg val size : Nat) (hreg : reg < 2 ^ 32)
    (hctl : reg ≠ sim_ctrl w.rtl) (hsize : size = 1 ∨ size = 2 ∨ size = 4)
    (hlane : reg % 4 + size ≤ 4) :
    ((1 <<< size) - 1) <<< (reg % 4) < 16 ∧
    sent (rtl_write w reg val size).1.trace
      = sent w.trace ++ [cmd_W reg ((val <<< (8 * (reg % 4))) % 2 ^ 32)
          (((1 <<< size) - 1) <<< (reg % 4))] := by
  have hmod : reg % 2 ^ 32 = reg := Nat.mod_eq_of_lt hreg
  have hmask : ((1 <<< size) - 1) <<< (reg % 4) < 16 := by
    have hk : reg % 4 < 4 := Nat.mod_lt _ (by decide)
    generalize reg % 4 = k at hlane hk
    rcases hsize with rfl | rfl | rfl <;> interval_cases k <;> first | decide | omega
  refine ⟨hmask, ?_⟩
  have h := rtl_write_sent_W w reg val size (by rw [hmod]; exact hctl) (by rw [hmod]; exact hmask)
  rw [hmod] at h
  exact h

theorem rtl_write_byte_lanes_witness :
    (0x1002 : Nat) < 2 ^ 32 ∧ 0x1002 ≠ sim_ctrl (demo_world []).rtl ∧ ((1 : Nat) = 1 ∨ 1 = 2 ∨ 1 = 4)
    ∧ 0x1002 % 4 + 1 ≤ 4
    ∧ sent (rtl_write (demo_world []) 0x1002 0xAB 1).1.trace = [bytes "W:00001002<=00AB0000|4\r\n"] :=
  ⟨by decide, by decide, by decide, by decide,
    (rtl_write_byte_lanes (demo_world []) 0x1002 0xAB 1 (by decide) (by decide) (by decide)
      (by decide)).2.trans (by decide)⟩

/-- C2: for every register offset `reg`, `rtl_read` transmits exactly `R:`,
`reg` as eight upper-case hexadecimal digits, CR LF; and when the one frame
received for the command is the reply `R=`, eight hexadecimal digits of value
`V`, CR LF (nothing is pending behind it when the wait resumes), it returns
`V >> (8 * (reg mod 4))`, so that byte `i` of the result is byte
`reg mod 4 + i` of the replied word. -/
theorem rtl_read_lane_alignment (w : World) (reg size : Nat) (hreg : reg < 2 ^ 32) :
    sent (rtl_read w reg size).1.trace = sent w.trace ++ [cmd_R reg] ∧
    ∀ (ds : List Nat), w.live = true → ds.length = 8 →
      (∀ c ∈ ds, (hexval c).isSome = true) →
      inbound w (cmd_R reg) = [bytes "R=" ++ ds ++ bytes "\r\n"] →
      (rtl_read w reg size).2 = some (hex_value ds >>> (8 * (reg % 4))) ∧
      ∀ i, i < size →
        byte_lane (hex_value ds >>> (8 * (reg % 4))) i = byte_lane (hex_value ds) (reg % 4 + i) := by
  have hmod : reg % 2 ^ 32 = reg := Nat.mod_eq_of_lt hreg
  rw [rtl_read_eq, hmod]
  constructor
  · have hs := (cond_wait_sent (qemu_chr_fe_write_all w (cmd_R reg))).1
    rw [sent_chr_write] at hs
    rcases hw : qemu_cond_wait (qemu_chr_fe_write_all w (cmd_R reg)) with ⟨w1, b⟩
    rw [hw] at hs
    cases b
    · simpa [read_reply] using hs
    · simp only [read_reply, if_true]
      split <;> simp [qemu_set_irq, qemu_log_mask, sent_append, sent, hs]
  · intro ds hlive hlen hhex hin
    refine ⟨?_, fun i _ => byte_lane_shift _ _ _⟩
    have hfl : (bytes "R=" ++ ds ++ bytes "\r\n").length = 12 := by
      simp [hlen, show bytes "R=" = [82, 61] from rfl, show bytes "\r\n" = [13, 10] from rfl]
    rw [cond_wait_reply (qemu_chr_fe_write_all w (cmd_R reg)) _ [] hlive hin hfl
      (by simp [show bytes "R=" = [82, 61] from rfl])]
    simp only [read_reply, if_true, reply_str, sscanf_R_frame ds hlen hhex]

theorem rtl_read_lane_alignment_witness :
    (0x1002 : Nat) < 2 ^ 32 ∧ (demo_world [bytes "R=12345678\r\n"]).live = true
    ∧ (bytes "12345678").length = 8 ∧ (∀ c ∈ bytes "12345678", (hexval c).isSome = true)
    ∧ inbound (demo_world [bytes "R=12345678\r\n"]) (cmd_R 0x1002)
        = [bytes "R=" ++ bytes "12345678" ++ bytes "\r\n"]
    ∧ (rtl_read (demo_world [bytes "R=12345678\r\n"]) 0x1002 2).2 = some 0x1234 :=
  ⟨by decide, rfl, by decide, by decide, by decide,
    (((rtl_read_lane_alignment (demo_world [bytes "R=12345678\r\n"]) 0x1002 2 (by decide)).2
      (bytes "12345678") rfl (by decide) (by decide) (by decide)).1).trans (by decide)⟩

/-- C3 as stated fails: against the echo-back fake whose word at 0 holds
`0xAABBCCDD`, writing the byte `0x12` to offset 0 and reading the byte at
offset 0 back makes `rtl_read` return `0xAABBCC12`, not `0x12`. -/
theorem round_trip_exact_counterexample :
    (0 : Nat) ≠ sim_ctrl (demo_world []).rtl ∧ 0 % 4 + 1 ≤ 4 ∧ (0x12 : Nat) < 2 ^ (8 * 1)
    ∧ (rtl_read (rtl_write (fake_world (demo_world []).rtl (fun _ => 0xAABBCCDD)) 0 0x12 1).1 0 1).2
        = some 0xAABBCC12
    ∧ (rtl_read (rtl_write (fake_world (demo_world []).rtl (fun _ => 0xAABBCCDD)) 0 0x12 1).1 0 1).2
        ≠ some 0x12 := by
  decide

/-- C3, amended: against the echo-back fake, for an offset `reg` other than
the control register, a size 1, 2 or 4 that stays inside the word, a value
`val < 2^(8 size)` and any prior content of the memory, `rtl_write` returns and
the `rtl_read` that follows returns `val` in its low `8 size` bits; the bits
above them are the bytes of the addressed word above the lane, as they were
before the write. -/
theorem round_trip_low_bits (rtl : RTLBridge) (mem : Nat → Nat) (reg val size : Nat)
    (hreg : reg < 2 ^ 32) (hctl : reg ≠ sim_ctrl rtl) (hsize : size = 1 ∨ size = 2 ∨ size = 4)
    (hlane : reg % 4 + size ≤ 4) (hval : val < 2 ^ (8 * size)) :
    (rtl_write (fake_world rtl mem) reg val size).2 = true ∧
    ∃ r, (rtl_read (rtl_write (fake_world rtl mem) reg val size).1 reg size).2 = some r
      ∧ r % 2 ^ (8 * size) = val
      ∧ r = val + 2 ^ (8 * size) * (mem (reg - reg % 4) % 2 ^ 32 / 2 ^ (8 * (reg % 4 + size))) := by
  have hmask : ((1 <<< size) - 1) <<< (reg % 4) < 16 := by
    have hk : reg % 4 < 4 := Nat.mod_lt _ (by decide)
    generalize reg % 4 = k at hlane hk
    rcases hsize with rfl | rfl | rfl <;> interval_cases k <;> first | decide | omega
  obtain ⟨h1, h2⟩ := fake_round_trip rtl mem reg val size hreg hctl hmask
  refine ⟨h1, _, h2, ?_, lane_arith _ val size (reg % 4) hsize hlane hval⟩
  rw [lane_arith _ val size (reg % 4) hsize hlane hval, Nat.add_mul_mod_self_left,
    Nat.mod_eq_of_lt hval]

theorem round_trip_low_bits_witness :
    (6 : Nat) < 2 ^ 32 ∧ 6 ≠ sim_ctrl (demo_world []).rtl ∧ ((2 : Nat) = 1 ∨ 2 = 2 ∨ 2 = 4)
    ∧ 6 % 4 + 2 ≤ 4 ∧ (0x1234 : Nat) < 2 ^ (8 * 2)
    ∧ (rtl_write (fake_world (demo_world []).rtl (fun _ => 0xAABBCCDD)) 6 0x1234 2).2 = true
    ∧ ∃ r, (rtl_read (rtl_write (fake_world (demo_world []).rtl (fun _ => 0xAABBCCDD))
              6 0x1234 2).1 6 2).2 = some r
        ∧ r % 2 ^ (8 * 2) = 0x1234
        ∧ r = 0x1234 + 2 ^ (8 * 2) * ((fun _ => 0xAABBCCDD) (6 - 6 % 4) % 2 ^ 32
                / 2 ^ (8 * (6 % 4 + 2))) :=
  ⟨by decide, by decide, by decide, by decide, by decide,
    round_trip_low_bits (demo_world []).rtl (fun _ => 0xAABBCCDD) 6 0x1234 2 (by decide)
      (by decide) (by decide) (by decide) (by decide)⟩

/-- C4 as stated fails: the command `rtl_write` transmits for the value 0 at
offset 0 with size 4 is `W:00000000<=00000000|F` CR LF, which is 24 bytes
long, not 12. -/
theorem write_frame_length_counterexample :
    sent (rtl_write (demo_world []) 0 0 4).1.trace = [bytes "W:00000000<=00000000|F\r\n"]
    ∧ (bytes "W:00000000<=00000000|F\r\n").length = 24
    ∧ (bytes "W:00000000<=00000000|F\r\n").length ≠ 12 := by
  decide

/-- C4, amended: the one frame transmitted by `rtl_read`, by `rtl_reset`, by
`rtl_timer_cb` and by `rtl_write` to the control register (time-advance or
stop) is exactly 12 bytes long, CR LF included, for every address, size and
value; the one frame of an ordinary `rtl_write`, the `W:` command, is 24 bytes
long, or 25 when its mask `((1 << size) - 1) << k`, cut to 8 bits, takes two
hexadecimal digits. -/
theorem command_frame_lengths (w : World) (addr val size : Nat) (now : Int) :
    (∃ f, sent (rtl_read w addr size).1.trace = sent w.trace ++ [f] ∧ f.length = 12) ∧
    (∃ f, sent (rtl_reset w now).1.trace = sent w.trace ++ [f] ∧ f.length = 12) ∧
    (∃ f, sent (rtl_timer_cb w now).1.trace = sent w.trace ++ [f] ∧ f.length = 12) ∧
    (∃ f, sent (rtl_write w addr val size).1.trace = sent w.trace ++ [f] ∧
      f.length = if addr % 2 ^ 32 = sim_ctrl w.rtl then 12
        else if (((1 <<< size) - 1) <<< (addr % 2 ^ 32 % 4)) % 2 ^ 8 < 16 then 24 else 25) := by
  obtain ⟨-, -, -, b4, b5, -⟩ := bytes_length_facts
  refine ⟨⟨_, rtl_read_sent w addr size, ?_⟩, ⟨_, rtl_reset_sent w now, by decide⟩,
    ⟨_, rtl_timer_cb_sent w now, by decide⟩, ⟨_, rtl_write_sent w addr val size, ?_⟩⟩
  · simp only [cmd_R, List.length_append, hex_field_length, b4, b5]
  · by_cases hc : addr % 2 ^ 32 = sim_ctrl w.rtl
    · by_cases hv : val = 0
      · simp only [hc, hv, and_self, if_true]
        decide
      · simp only [hc, hv, and_false, if_false, if_true]
        exact (write_text_length w.rtl addr val size).1 hc
    · simp only [hc, false_and, if_false]
      exact write_text_W_length w.rtl addr val size hc

/-- C5 as stated fails: a stop (a write of zero to the control register
`0xFFFFF0` of the default span) sends `X:STOP` and returns at once, with no
wake-up consumed although a frame is waiting; and when a read follows it, two
commands have been transmitted and none of them answered. -/
theorem stop_unanswered_counterexample :
    (rtl_write (demo_world [ack_W]) 0xFFFFF0 0 4).2 = true
    ∧ (rtl_write (demo_world [ack_W]) 0xFFFFF0 0 4).1.trace
        = [Event.chr_write cmd_STOP, Event.shutdown_request]
    ∧ (rtl_write (demo_world [ack_W]) 0xFFFFF0 0 4).1.rx = [ack_W]
    ∧ (run (demo_world []) [Op.write 0xFFFFF0 0 4, Op.read 0 4]).trace
        = [Event.chr_write cmd_STOP, Event.shutdown_request, Event.chr_write (cmd_R 0)]
    ∧ unanswered [] (run (demo_world []) [Op.write 0xFFFFF0 0 4, Op.read 0 4]).trace = 2 := by
  decide

/-- C5, amended: each operation of the owning context (`rtl_read`,
`rtl_write`, `rtl_reset`, `rtl_timer_cb`) transmits exactly one command frame;
each operation other than a stop (the write of zero to the control register,
which sends `X:STOP` and returns at once) that returns has consumed a wake-up
right after its command; so in every sequence of operations, at no point of
the trace are two transmitted commands other than `X:STOP` unanswered. -/
theorem single_flight (w : World) (op : Op) (ops : List Op) :
    (∃ c, sent (exec w op).1.trace = sent w.trace ++ [c]) ∧
    ((exec w op).2 = true → ¬ is_stop w op →
      ∃ pre c f post, (exec w op).1.trace
          = w.trace ++ (pre ++ Event.chr_write c :: Event.wake f :: post)
        ∧ ∀ e ∈ pre, e.quiet = true) ∧
    (w.trace = [] → ∀ p, p <+: (run w ops).trace → unanswered [cmd_STOP] p ≤ 1) := by
  obtain ⟨pre, c, fs, post, ht, hpre, hpost, hs, hns⟩ := exec_shape w op
  refine ⟨⟨c, ?_⟩, fun hr hst => ?_, fun h0 p hp => ?_⟩
  · rw [ht]
    simp [sent_append, sent, sent_quiet pre hpre, sent_quiet post hpost, sent_map_wake]
  · obtain ⟨f, fs1, rfl⟩ := List.exists_cons_of_ne_nil ((hns hst).2 hr)
    exact ⟨pre, c, f, fs1.map Event.wake ++ post, by rw [ht]; simp, hpre⟩
  · exact never_two_prefix [cmd_STOP] 0 _ p
      (run_never_two ops w (by rw [h0]; simp [never_two]) (by rw [h0]; rfl)) hp

theorem single_flight_witness :
    ((exec (demo_world [ack_W, bytes "T=00000001\r\n"]) (Op.write 0x10 0xAB 1)).2 = true
      ∧ ¬ is_stop (demo_world [ack_W, bytes "T=00000001\r\n"]) (Op.write 0x10 0xAB 1)
      ∧ ∃ pre c f post, (exec (demo_world [ack_W, bytes "T=00000001\r\n"])
              (Op.write 0x10 0xAB 1)).1.trace
            = (demo_world [ack_W, bytes "T=00000001\r\n"]).trace
                ++ (pre ++ Event.chr_write c :: Event.wake f :: post)
          ∧ ∀ e ∈ pre, e.quiet = true)
    ∧ ((demo_world [ack_W, bytes "T=00000001\r\n"]).trace = []
      ∧ [Event.chr_write (bytes "W:00000010<=000000AB|1\r\n"), Event.wake ack_W, Event.set_irq 5,
          Event.chr_write cmd_STOP, Event.shutdown_request, Event.timer_mod 1000,
          Event.chr_write (cmd_T 1)]
          <+: (run (demo_world [ack_W, bytes "T=00000001\r\n"])
                [Op.write 0x10 0xAB 1, Op.write 0xFFFFF0 0 4, Op.timer_cb 0]).trace
      ∧ unanswered [cmd_STOP]
          [Event.chr_write (bytes "W:00000010<=000000AB|1\r\n"), Event.wake ack_W, Event.set_irq 5,
            Event.chr_write cmd_STOP, Event.shutdown_request, Event.timer_mod 1000,
            Event.chr_write (cmd_T 1)] ≤ 1) := by
  have hpfx : [Event.chr_write (bytes "W:00000010<=000000AB|1\r\n"), Event.wake ack_W,
        Event.set_irq 5, Event.chr_write cmd_STOP, Event.shutdown_request, Event.timer_mod 1000,
        Event.chr_write (cmd_T 1)]
      <+: (run (demo_world [ack_W, bytes "T=00000001\r\n"])
            [Op.write 0x10 0xAB 1, Op.write 0xFFFFF0 0 4, Op.timer_cb 0]).trace :=
    ⟨[Event.wake (bytes "T=00000001\r\n")], by decide⟩
  have hns : ¬ is_stop (demo_world [ack_W, bytes "T=00000001\r\n"]) (Op.write 0x10 0xAB 1) := by
    decide
  exact ⟨⟨by decide, hns,
      (single_flight (demo_world [ack_W, bytes "T=00000001\r\n"]) (Op.write 0x10 0xAB 1) []).2.1
        (by decide) hns⟩,
    ⟨rfl, hpfx,
      (single_flight (demo_world [ack_W, bytes "T=00000001\r\n"]) (Op.write 0x10 0xAB 1)
        [Op.write 0x10 0xAB 1, Op.write 0xFFFFF0 0 4, Op.timer_cb 0]).2.2 rfl _ hpfx⟩⟩

/-- C6: a write to the control register (`reg == span - 16` in `uint32_t`) of
the value zero transmits exactly the frame `X:STOP` (padded, CR LF) and
requests the shutdown of the host, without waiting; of a nonzero value
`N < 2^32` it transmits exactly the one frame `T:` with `N` as eight upper-case
hexadecimal digits; in neither case a `W:` command.  A write to any other
register transmits exactly one frame, which starts with `W:`, so no `X:` or
`T:` command.  All this for every size. -/
theorem sim_ctrl_dispatch (w : World) (addr val size : Nat) :
    (addr % 2 ^ 32 = sim_ctrl w.rtl → val = 0 →
      rtl_write w addr val size
        = ({ w with trace := w.trace ++ [Event.chr_write cmd_STOP, Event.shutdown_request],
                    rx := inbound w cmd_STOP }, true)
      ∧ sent (rtl_write w addr val size).1.trace = sent w.trace ++ [cmd_STOP]) ∧
    (addr % 2 ^ 32 = sim_ctrl w.rtl → val ≠ 0 → val < 2 ^ 32 →
      sent (rtl_write w addr val size).1.trace = sent w.trace ++ [cmd_T val]) ∧
    (addr % 2 ^ 32 ≠ sim_ctrl w.rtl →
      ∃ f, sent (rtl_write w addr val size).1.trace = sent w.trace ++ [f]
        ∧ f.take 2 = bytes "W:") := by
  refine ⟨fun hc hv => ⟨rtl_write_stop_trace w addr val size ⟨hc, hv⟩, ?_⟩, fun hc hv hlt => ?_,
    fun hc => ⟨_, rtl_write_sent w addr val size, ?_⟩⟩
  · rw [rtl_write_sent, if_pos ⟨hc, hv⟩]
  · rw [rtl_write_sent, if_neg (fun h => hv h.2)]
    simp only [write_text, hc, if_true, Nat.mod_eq_of_lt hlt]
  · rw [if_neg (fun h => hc h.1)]
    exact write_text_W_head w.rtl addr val size hc

theorem sim_ctrl_dispatch_witness :
    ((0xFFFFF0 % 2 ^ 32 = sim_ctrl (demo_world []).rtl ∧ (0 : Nat) = 0)
      ∧ (rtl_write (demo_world []) 0xFFFFF0 0 4).1.trace
          = [Event.chr_write (bytes "X:STOP    \r\n"), Event.shutdown_request])
    ∧ ((0xFFFFF0 % 2 ^ 32 = sim_ctrl (demo_world []).rtl ∧ (0x2A : Nat) ≠ 0 ∧ (0x2A : Nat) < 2 ^ 32)
      ∧ sent (rtl_write (demo_world []) 0xFFFFF0 0x2A 4).1.trace = [bytes "T:0000002A\r\n"])
    ∧ (0x10 % 2 ^ 32 ≠ sim_ctrl (demo_world []).rtl
      ∧ ∃ f, sent (rtl_write (demo_world []) 0x10 0 4).1.trace
            = sent (demo_world []).trace ++ [f] ∧ f.take 2 = bytes "W:") :=
  ⟨⟨by decide, congrArg (fun r => r.1.trace)
      ((sim_ctrl_dispatch (demo_world []) 0xFFFFF0 0 4).1 (by decide) rfl).1⟩,
   ⟨by decide, ((sim_ctrl_dispatch (demo_world []) 0xFFFFF0 0x2A 4).2.1 (by decide) (by decide)
      (by decide)).trans (by decide)⟩,
   ⟨by decide, (sim_ctrl_dispatch (demo_world []) 0x10 0 4).2.2 (by decide)⟩⟩

/-- C7 as stated fails: the periodic synchronizer `rtl_timer_cb`, run on a
bridge that gets the well-formed reply `T=00000001`, arms the timer, sends its
time-advance and takes the wake-up, and returns without any call of
`qemu_set_irq`. -/
theorem timer_cb_no_irq_counterexample :
    (rtl_timer_cb (demo_world [bytes "T=00000001\r\n"]) 0).2 = true
    ∧ (rtl_timer_cb (demo_world [bytes "T=00000001\r\n"]) 0).1.trace
        = [Event.timer_mod 1000, Event.chr_write (bytes "T:00000001\r\n"),
           Event.wake (bytes "T=00000001\r\n")]
    ∧ ∀ level, Event.set_irq level
        ∉ (rtl_timer_cb (demo_world [bytes "T=00000001\r\n"]) 0).1.trace := by
  have h : (rtl_timer_cb (demo_world [bytes "T=00000001\r\n"]) 0).1.trace
      = [Event.timer_mod 1000, Event.chr_write (bytes "T:00000001\r\n"),
         Event.wake (bytes "T=00000001\r\n")] := by decide
  refine ⟨by decide, h, fun level hm => ?_⟩
  rw [h] at hm
  simp at hm

/-- C7, amended: take an `rtl_read`, or an `rtl_write` other than a stop (an
ordinary write, or a time-advance through the control register), for which the
receiving thread reads interrupt reports (possibly none), then the well-formed
reply (`R=` and eight hexadecimal digits for the read; `W=OK`, or a frame
starting with `T=`, for the write), and nothing more before the operation has
used the reply.  The last thing the operation does, after the wake-up, is to
call `qemu_set_irq` with the interrupt level the bridge holds at that time:
the last level reported, or the level held before when none was reported.  A
stop sends `X:STOP`, requests the shutdown and does not call `qemu_set_irq`;
the periodic synchronizer `rtl_timer_cb` arms the timer, sends `T:00000001`,
waits (one wake-up when it returns), and does not call `qemu_set_irq`
either. -/
theorem irq_reapplied_after_reply (w : World) (addr val size : Nat) (now : Int) :
    (∀ (pre : List (List Nat)) (ds : List Nat), w.live = true →
      inbound w (cmd_R (addr % 2 ^ 32)) = pre ++ [bytes "R=" ++ ds ++ bytes "\r\n"] →
      (∀ p ∈ pre, ∃ L, irq_report p L) →
      ds.length = 8 → (∀ c ∈ ds, (hexval c).isSome = true) →
      (rtl_read w addr size).1.trace
        = w.trace ++ [Event.chr_write (cmd_R (addr % 2 ^ 32)),
            Event.wake (bytes "R=" ++ ds ++ bytes "\r\n"),
            Event.set_irq (level_after w.rtl.irq_level pre)]
      ∧ (rtl_read w addr size).1.rtl.irq_level = level_after w.rtl.irq_level pre) ∧
    (∀ (pre : List (List Nat)) (f : List Nat),
      ¬ (addr % 2 ^ 32 = sim_ctrl w.rtl ∧ val = 0) → w.live = true →
      inbound w (write_text w.rtl addr val size) = pre ++ [f] →
      (∀ p ∈ pre, ∃ L, irq_report p L) →
      (f = ack_W ∨ (f.length = 12 ∧ f.take 2 = bytes "T=")) →
      (rtl_write w addr val size).1.trace
        = w.trace ++ [Event.chr_write (write_text w.rtl addr val size), Event.wake f,
            Event.set_irq (level_after w.rtl.irq_level pre)]
      ∧ (rtl_write w addr val size).1.rtl.irq_level = level_after w.rtl.irq_level pre) ∧
    ((addr % 2 ^ 32 = sim_ctrl w.rtl ∧ val = 0) →
      (rtl_write w addr val size).1.trace
        = w.trace ++ [Event.chr_write cmd_STOP, Event.shutdown_request]) ∧
    (∃ fs : List (List Nat), fs.length ≤ 1
      ∧ (rtl_timer_cb w now).1.trace
          = w.trace ++ Event.timer_mod (now + (w.rtl.sync : Int)) :: Event.chr_write (cmd_T 1)
              :: fs.map Event.wake
      ∧ ((rtl_timer_cb w now).2 = true ↔ fs.length = 1)) := by
  refine ⟨fun pre ds hlive hin hpre hlen hhex => ?_, fun pre f hns hlive hin hpre hf => ?_,
    fun hs => ?_, ?_⟩
  · have hfl : (bytes "R=" ++ ds ++ bytes "\r\n").length = 12 := by
      simp [hlen, show bytes "R=" = [82, 61] from rfl, show bytes "\r\n" = [13, 10] from rfl]
    have hfh : (bytes "R=" ++ ds ++ bytes "\r\n").headD 0 ≠ 73 := by
      simp [show bytes "R=" = [82, 61] from rfl]
    obtain ⟨h1, h2, h3, -⟩ := await_reports_reply w _ pre _ hlive hin hpre hfl hfh
    have hv : sscanf_x (bytes "R=") 64 (reply_str (await w (cmd_R (addr % 2 ^ 32))).1.rtl)
        = some (hex_value ds) := by
      unfold reply_str
      rw [h2]
      exact sscanf_R_frame ds hlen hhex
    rw [rtl_read_good w addr size _ h1 hv]
    have ht := await_trace w (cmd_R (addr % 2 ^ 32))
    rw [if_pos h1, h2] at ht
    simp only [qemu_set_irq]
    rw [ht, h3]
    simp
  · have hfl : f.length = 12 := by
      rcases hf with rfl | ⟨h, -⟩
      · decide
      · exact h
    have hfh : f.headD 0 ≠ 73 := by
      rcases hf with rfl | ⟨-, h⟩
      · decide
      · match f, h with
        | [], h => simp [bytes] at h
        | [_], h => simp [bytes] at h
        | a :: b :: t, h =>
          have ha : a = 84 := by
            have := congrArg (fun l => l.headD 0) h
            simpa [bytes] using this
          simp [ha]
    obtain ⟨h1, h2, h3, -⟩ := await_reports_reply w _ pre f hlive hin hpre hfl hfh
    have hc : (await w (write_text w.rtl addr val size)).1.rtl.reply = ack_W
        ∨ (await w (write_text w.rtl addr val size)).1.rtl.reply.take 2 = bytes "T=" := by
      rw [h2]
      rcases hf with h | ⟨-, h⟩
      · exact Or.inl h
      · exact Or.inr h
    rw [rtl_write_checked w addr val size hns h1, if_pos hc]
    have ht := await_trace w (write_text w.rtl addr val size)
    rw [if_pos h1, h2] at ht
    simp only [qemu_set_irq]
    rw [ht, h3]
    simp
  · rw [rtl_write_stop_trace w addr val size hs]
  · have ht : (rtl_timer_cb w now).1.trace
        = w.trace ++ Event.timer_mod (now + (w.rtl.sync : Int)) :: Event.chr_write (cmd_T 1)
            :: (if (rtl_timer_cb w now).2 = true
                then [Event.wake (rtl_timer_cb w now).1.rtl.reply] else []) := by
      rw [rtl_timer_cb_eq, cond_wait_trace]
      simp [qemu_chr_fe_write_all, timer_mod]
    by_cases hr : (rtl_timer_cb w now).2 = true
    · refine ⟨[(rtl_timer_cb w now).1.rtl.reply], by simp, ?_, by simp [hr]⟩
      rw [ht, if_pos hr]
      rfl
    · refine ⟨[], by simp, ?_, by simp [hr]⟩
      rw [ht, if_neg hr]
      rfl

theorem irq_reapplied_after_reply_witness :
    ((demo_world [bytes "I=7       \r\n", bytes "R=12345678\r\n"]).live = true
      ∧ inbound (demo_world [bytes "I=7       \r\n", bytes "R=12345678\r\n"])
            (cmd_R (0x1002 % 2 ^ 32))
          = [bytes "I=7       \r\n"] ++ [bytes "R=" ++ bytes "12345678" ++ bytes "\r\n"]
      ∧ (∀ p ∈ [bytes "I=7       \r\n"], ∃ L, irq_report p L)
      ∧ (bytes "12345678").length = 8 ∧ (∀ c ∈ bytes "12345678", (hexval c).isSome = true)
      ∧ (rtl_read (demo_world [bytes "I=7       \r\n", bytes "R=12345678\r\n"]) 0x1002 2).1.trace
          = [Event.chr_write (bytes "R:00001002\r\n"), Event.wake (bytes "R=12345678\r\n"),
             Event.set_irq 7])
    ∧ (¬ (0x10 % 2 ^ 32 = sim_ctrl (demo_world [ack_W]).rtl ∧ (0xAB : Nat) = 0)
      ∧ (demo_world [ack_W]).live = true
      ∧ inbound (demo_world [ack_W]) (write_text (demo_world [ack_W]).rtl 0x10 0xAB 1)
          = [] ++ [ack_W]
      ∧ (rtl_write (demo_world [ack_W]) 0x10 0xAB 1).1.trace
          = [Event.chr_write (bytes "W:00000010<=000000AB|1\r\n"), Event.wake ack_W,
             Event.set_irq 5])
    ∧ ((0xFFFFF0 % 2 ^ 32 = sim_ctrl (demo_world [ack_W]).rtl ∧ (0 : Nat) = 0)
      ∧ (rtl_write (demo_world [ack_W]) 0xFFFFF0 0 4).1.trace
          = [Event.chr_write cmd_STOP, Event.shutdown_request]) := by
  have hrep : ∀ p ∈ [bytes "I=7       \r\n"], ∃ L, irq_report p L := by
    intro p hp
    rw [List.mem_singleton] at hp
    subst hp
    exact ⟨7, by decide, by decide, by decide⟩
  exact
  ⟨⟨rfl, by decide, hrep, by decide, by decide,
      ((irq_reapplied_after_reply (demo_world [bytes "I=7       \r\n", bytes "R=12345678\r\n"])
          0x1002 0 2 0).1 [bytes "I=7       \r\n"] (bytes "12345678") rfl (by decide) hrep
          (by decide) (by decide)).1.trans (by decide)⟩,
   ⟨by decide, rfl, by decide,
      ((irq_reapplied_after_reply (demo_world [ack_W]) 0x10 0xAB 1 0).2.1 [] ack_W (by decide)
          rfl (by decide) (by simp) (Or.inl rfl)).1.trans (by decide)⟩,
   ⟨by decide, (irq_reapplied_after_reply (demo_world [ack_W]) 0xFFFFF0 0 4 0).2.2.1
      (by decide)⟩⟩

/-- C8: a reply frame handed to the waiter is a 12-byte frame that is not an
interrupt report; here it is the one frame received for the command, with
nothing pending behind it.  If the one handed to `rtl_read` does not start
with `R=` followed by a hexadecimal number (as `%x` reads one), `rtl_read`
returns 0, logs the error and leaves the interrupt line alone; if the one
handed to `rtl_write` (not a stop) is neither `W=OK` (padded, CR LF) nor starts
with `T=`, `rtl_write` returns, logs the error, leaves the interrupt line alone
and the bridge state as it was, the reply buffer holding the frame received. -/
theorem malformed_reply_degrades (w : World) (addr val size : Nat) (f : List Nat)
    (hlive : w.live = true) (hlen : f.length = 12) (hI : f.headD 0 ≠ 73) :
    (inbound w (cmd_R (addr % 2 ^ 32)) = [f] →
      ¬ starts_with_hex (bytes "R=") (cstr f) →
      rtl_read w addr size
        = ({ w with rtl := { w.rtl with reply := f }, rx := [],
                    trace := w.trace ++ [Event.chr_write (cmd_R (addr % 2 ^ 32)), Event.wake f,
                      Event.log_guest_error] }, some 0)) ∧
    (¬ (addr % 2 ^ 32 = sim_ctrl w.rtl ∧ val = 0) →
      inbound w (write_text w.rtl addr val size) = [f] →
      f ≠ ack_W → f.take 2 ≠ bytes "T=" →
      rtl_write w addr val size
        = ({ w with rtl := { w.rtl with reply := f }, rx := [],
                    trace := w.trace ++ [Event.chr_write (write_text w.rtl addr val size),
                      Event.wake f, Event.log_guest_error] }, true)) := by
  constructor
  · intro hin hbad
    have ha := await_reply w _ f [] hlive hin hlen hI
    have hv : sscanf_x (bytes "R=") 64 (reply_str (await w (cmd_R (addr % 2 ^ 32))).1.rtl)
        = none := by
      rw [ha, reply_str_of_length _ hlen]
      exact sscanf_x_fail _ _ _ hbad
    rw [rtl_read_bad w addr size (by rw [ha]) hv, ha]
    simp [qemu_log_mask]
  · intro hns hin h1 h2
    have ha := await_reply w _ f [] hlive hin hlen hI
    rw [rtl_write_checked w addr val size hns (by rw [ha]), ha]
    simp [qemu_log_mask, h1, h2]

theorem malformed_reply_degrades_witness :
    ((demo_world [bytes "R=xyz     \r\n"]).live = true ∧ (bytes "R=xyz     \r\n").length = 12
      ∧ (bytes "R=xyz     \r\n").headD 0 ≠ 73
      ∧ inbound (demo_world [bytes "R=xyz     \r\n"]) (cmd_R (0x1002 % 2 ^ 32))
          = [bytes "R=xyz     \r\n"]
      ∧ ¬ starts_with_hex (bytes "R=") (cstr (bytes "R=xyz     \r\n"))
      ∧ (rtl_read (demo_world [bytes "R=xyz     \r\n"]) 0x1002 2).2 = some 0)
    ∧ ((demo_world [bytes "W=FAIL    \r\n"]).live = true ∧ (bytes "W=FAIL    \r\n").length = 12
      ∧ (bytes "W=FAIL    \r\n").headD 0 ≠ 73
      ∧ ¬ (0x10 % 2 ^ 32 = sim_ctrl (demo_world [bytes "W=FAIL    \r\n"]).rtl ∧ (0xAB : Nat) = 0)
      ∧ inbound (demo_world [bytes "W=FAIL    \r\n"])
            (write_text (demo_world [bytes "W=FAIL    \r\n"]).rtl 0x10 0xAB 1)
          = [bytes "W=FAIL    \r\n"]
      ∧ bytes "W=FAIL    \r\n" ≠ ack_W ∧ (bytes "W=FAIL    \r\n").take 2 ≠ bytes "T="
      ∧ (rtl_write (demo_world [bytes "W=FAIL    \r\n"]) 0x10 0xAB 1).1.rtl
          = { (demo_world [bytes "W=FAIL    \r\n"]).rtl with reply := bytes "W=FAIL    \r\n" }) := by
  have hbad : ¬ starts_with_hex (bytes "R=") (cstr (bytes "R=xyz     \r\n")) := by
    intro hs
    obtain ⟨r, h1, h2⟩ := starts_with_hex_digit _ _ hs
    have hr : scan_lit (bytes "R=") (cstr (bytes "R=xyz     \r\n")) = some (bytes "xyz     \r\n") := by
      decide
    rw [hr] at h1
    cases h1
    revert h2
    decide
  exact
  ⟨⟨rfl, by decide, by decide, by decide, hbad,
      congrArg Prod.snd ((malformed_reply_degrades (demo_world [bytes "R=xyz     \r\n"]) 0x1002 0 2
        (bytes "R=xyz     \r\n") rfl (by decide) (by decide)).1 (by decide) hbad)⟩,
   ⟨rfl, by decide, by decide, by decide, by decide, by decide, by decide,
      congrArg (fun r => r.1.rtl)
        ((malformed_reply_degrades (demo_world [bytes "W=FAIL    \r\n"]) 0x10 0xAB 1
          (bytes "W=FAIL    \r\n") rfl (by decide) (by decide)).2 (by decide) (by decide)
          (by decide) (by decide))⟩⟩

/-- C10: whatever the interrupt level was, the first two things `rtl_reset`
does are to call `qemu_set_irq` with the level 0 it has just stored in
`irq_level`, then to transmit the frame `X:RESET` (padded, CR LF); it
transmits nothing else.  The prior level has no influence on the call, and the
stored level is still 0 at the end unless an interrupt report arrives during
the reset. -/
theorem rtl_reset_deasserts_first (w : World) (now : Int) :
    (∃ tail, (rtl_reset w now).1.trace
        = w.trace ++ Event.set_irq 0 :: Event.chr_write cmd_RESET :: tail ∧ sent tail = [])
    ∧ rtl_reset w now = rtl_reset { w with rtl := { w.rtl with irq_level := 0 } } now
    ∧ ((∀ f ∈ inbound w cmd_RESET, f.headD 0 ≠ 73) → (rtl_reset w now).1.rtl.irq_level = 0) := by
  refine ⟨?_, rfl, fun hq => ?_⟩
  · rw [rtl_reset_eq, reset_start]
    obtain ⟨fs, h1, -⟩ := reset_wait_trace ((inbound w cmd_RESET).length + 1)
      { w with rtl := { w.rtl with irq_level := 0 }, rx := inbound w cmd_RESET,
               trace := w.trace ++ [Event.set_irq 0, Event.chr_write cmd_RESET] }
    generalize rtl_reset_wait ((inbound w cmd_RESET).length + 1)
      { w with rtl := { w.rtl with irq_level := 0 }, rx := inbound w cmd_RESET,
               trace := w.trace ++ [Event.set_irq 0, Event.chr_write cmd_RESET] } = r at h1
    rcases r with ⟨w1, b⟩
    simp only at h1
    cases b
    · exact ⟨fs.map Event.wake, by simp [reset_done, h1], sent_map_wake fs⟩
    · exact ⟨fs.map Event.wake ++ [Event.timer_mod (now + (w1.rtl.sync : Int))],
        by simp [reset_done, timer_mod, h1], by simp [sent_append, sent_map_wake, sent]⟩
  · rw [rtl_reset_eq, reset_start]
    have h := reset_wait_quiet_irq ((inbound w cmd_RESET).length + 1)
      { w with rtl := { w.rtl with irq_level := 0 }, rx := inbound w cmd_RESET,
               trace := w.trace ++ [Event.set_irq 0, Event.chr_write cmd_RESET] } hq
    unfold reset_done
    split_ifs
    · simpa [timer_mod] using h
    · exact h

theorem rtl_reset_deasserts_first_witness :
    (∀ f ∈ inbound (demo_world [ack_RUNNING]) cmd_RESET, f.headD 0 ≠ 73)
    ∧ (demo_world [ack_RUNNING]).rtl.irq_level = 5
    ∧ (rtl_reset (demo_world [ack_RUNNING]) 0).1.rtl.irq_level = 0 :=
  ⟨by decide, rfl, (rtl_reset_deasserts_first (demo_world [ack_RUNNING]) 0).2.2 (by decide)⟩

/-- C11: one turn of the loop of `rtl_thread`, on the result `buf` of the
transport read.  If `buf` is not 12 bytes long the loop is left: the bridge
state, reply buffer and `irq_level` included, is unchanged, no signal is given
and a waiter stays blocked for good (what is pending behind the short read is
never read).  If `buf` is an interrupt report of the level `X` (12 bytes,
first an `I`, read as `I=` and `X` in hexadecimal), `irq_level` becomes `X`,
`X` is written to the notification pipe and no signal is given (the frame is in
the reply buffer all the same).  Every 12-byte frame that does not start with
`I` is copied to the reply buffer and the thread signals; a waiter for which
this frame is all there is to read is woken once and finds the frame in the
reply buffer. -/
theorem rtl_thread_dispatch (w : World) (buf : List Nat) (rest : List (List Nat)) :
    (buf.length ≠ 12 →
      rtl_thread_iter w.rtl buf = (w.rtl, Turn.exited)
      ∧ (w.live = true → w.rx = buf :: rest →
          qemu_cond_wait w = ({ w with rx := rest, live := false }, false))) ∧
    (∀ X, irq_report buf X →
      rtl_thread_iter w.rtl buf
        = ({ w.rtl with reply := buf, irq_level := X, pipes := w.rtl.pipes ++ [X] },
           Turn.silent)) ∧
    (buf.length = 12 → buf.headD 0 ≠ 73 →
      rtl_thread_iter w.rtl buf = ({ w.rtl with reply := buf }, Turn.signalled)
      ∧ (w.live = true → w.rx = [buf] →
          qemu_cond_wait w
            = ({ w with rtl := { w.rtl with reply := buf }, rx := [],
                        trace := w.trace ++ [Event.wake buf] }, true))) := by
  refine ⟨fun h => ⟨thread_iter_short _ _ h, fun hl hr => cond_wait_short w buf rest hl hr h⟩,
    fun X h => thread_iter_report _ _ _ h,
    fun hl hi => ⟨thread_iter_reply _ _ hl hi, fun hv hr => cond_wait_reply w buf [] hv hr hl hi⟩⟩

theorem rtl_thread_dispatch_witness :
    ((bytes "R=12").length ≠ 12
      ∧ rtl_thread_iter (demo_world []).rtl (bytes "R=12") = ((demo_world []).rtl, Turn.exited))
    ∧ (irq_report (bytes "I=0000002A\r\n") 0x2A
      ∧ (rtl_thread_iter (demo_world []).rtl (bytes "I=0000002A\r\n")).1.irq_level = 0x2A
      ∧ (rtl_thread_iter (demo_world []).rtl (bytes "I=0000002A\r\n")).1.pipes = [0x2A]
      ∧ (rtl_thread_iter (demo_world []).rtl (bytes "I=0000002A\r\n")).2 = Turn.silent)
    ∧ ((bytes "W=OK      \r\n").length = 12 ∧ (bytes "W=OK      \r\n").headD 0 ≠ 73
      ∧ rtl_thread_iter (demo_world []).rtl (bytes "W=OK      \r\n")
          = ({ (demo_world []).rtl with reply := bytes "W=OK      \r\n" }, Turn.signalled)
      ∧ (demo_world [bytes "W=OK      \r\n"]).live = true
      ∧ (demo_world [bytes "W=OK      \r\n"]).rx = [bytes "W=OK      \r\n"]
      ∧ (qemu_cond_wait (demo_world [bytes "W=OK      \r\n"])).1.trace
          = [Event.wake (bytes "W=OK      \r\n")]) := by
  have hrep : irq_report (bytes "I=0000002A\r\n") 0x2A := by
    refine ⟨by decide, by decide, by decide⟩
  have h2 := (rtl_thread_dispatch (demo_world []) (bytes "I=0000002A\r\n") []).2.1 0x2A hrep
  exact ⟨⟨by decide, ((rtl_thread_dispatch (demo_world []) (bytes "R=12") []).1 (by decide)).1⟩,
    ⟨hrep, by rw [h2], by rw [h2]; rfl, by rw [h2]⟩,
    ⟨by decide, by decide,
      ((rtl_thread_dispatch (demo_world []) (bytes "W=OK      \r\n") []).2.2 (by decide)
        (by decide)).1, rfl, rfl,
      congrArg (fun r => r.1.trace)
        (((rtl_thread_dispatch (demo_world [bytes "W=OK      \r\n"]) (bytes "W=OK      \r\n")
          []).2.2 (by decide) (by decide)).2 rfl rfl)⟩⟩

/-- C12: a read of the offset `reg` is outstanding and the receiving thread
reads an interrupt report of the level `L`, then the reply `R=` with eight
hexadecimal digits of value `V`, and nothing more before the read has resumed.
Handling the report alone already writes `L` to the notification pipe: with
nothing but the report received, `L` is in the pipe while the read is still
blocked.  With the reply received next, the read resumes on the reply frame
and returns `V >> (8 * (reg mod 4))`; the level re-applied at the end is
`L`. -/
theorem irq_report_during_read (w : World) (reg size L : Nat) (fi ds : List Nat)
    (hreg : reg < 2 ^ 32) (hlive : w.live = true)
    (hi : irq_report fi L) (hlen : ds.length = 8)
    (hhex : ∀ c ∈ ds, (hexval c).isSome = true) :
    (rtl_thread_iter w.rtl fi).1.pipes = w.rtl.pipes ++ [L] ∧
    (inbound w (cmd_R reg) = [fi] →
      (rtl_read w reg size).2 = none
      ∧ (rtl_read w reg size).1.rtl.pipes = w.rtl.pipes ++ [L]) ∧
    (inbound w (cmd_R reg) = [fi, bytes "R=" ++ ds ++ bytes "\r\n"] →
      rtl_read w reg size
        = ({ w with rtl := { w.rtl with irq_level := L, pipes := w.rtl.pipes ++ [L],
                                        reply := bytes "R=" ++ ds ++ bytes "\r\n" },
                    rx := [],
                    trace := w.trace ++ [Event.chr_write (cmd_R reg),
                      Event.wake (bytes "R=" ++ ds ++ bytes "\r\n"), Event.set_irq L] },
           some (hex_value ds >>> (8 * (reg % 4))))) := by
  have hmod : reg % 2 ^ 32 = reg := Nat.mod_eq_of_lt hreg
  have hfl : (bytes "R=" ++ ds ++ bytes "\r\n").length = 12 := by
    simp [hlen, show bytes "R=" = [82, 61] from rfl, show bytes "\r\n" = [13, 10] from rfl]
  have hfh : (bytes "R=" ++ ds ++ bytes "\r\n").headD 0 ≠ 73 := by
    simp [show bytes "R=" = [82, 61] from rfl]
  refine ⟨by rw [thread_iter_report _ _ _ hi], fun hin => ?_, fun hin => ?_⟩
  · rw [rtl_read_eq, hmod,
      cond_wait_report_only (qemu_chr_fe_write_all w (cmd_R reg)) fi L hlive hin hi]
    exact ⟨rfl, rfl⟩
  · rw [rtl_read_eq, hmod,
      cond_wait_report_reply (qemu_chr_fe_write_all w (cmd_R reg)) fi _ L [] hlive hin hi hfl
        hfh]
    simp only [read_reply, if_true, reply_str, sscanf_R_frame ds hlen hhex]
    simp [qemu_set_irq, qemu_chr_fe_write_all]

theorem irq_report_during_read_witness :
    (0x1002 : Nat) < 2 ^ 32
    ∧ (demo_world [bytes "I=0000002A\r\n", bytes "R=12345678\r\n"]).live = true
    ∧ irq_report (bytes "I=0000002A\r\n") 0x2A
    ∧ (bytes "12345678").length = 8 ∧ (∀ c ∈ bytes "12345678", (hexval c).isSome = true)
    ∧ (inbound (demo_world [bytes "I=0000002A\r\n"]) (cmd_R 0x1002) = [bytes "I=0000002A\r\n"]
      ∧ (rtl_read (demo_world [bytes "I=0000002A\r\n"]) 0x1002 2).2 = none
      ∧ (rtl_read (demo_world [bytes "I=0000002A\r\n"]) 0x1002 2).1.rtl.pipes = [] ++ [0x2A])
    ∧ (inbound (demo_world [bytes "I=0000002A\r\n", bytes "R=12345678\r\n"]) (cmd_R 0x1002)
          = [bytes "I=0000002A\r\n", bytes "R=" ++ bytes "12345678" ++ bytes "\r\n"]
      ∧ (rtl_read (demo_world [bytes "I=0000002A\r\n", bytes "R=12345678\r\n"]) 0x1002 2).2
          = some 0x1234) := by
  have hrep : irq_report (bytes "I=0000002A\r\n") 0x2A := ⟨by decide, by decide, by decide⟩
  exact ⟨by decide, rfl, hrep, by decide, by decide,
    ⟨by decide,
      (irq_report_during_read (demo_world [bytes "I=0000002A\r\n"]) 0x1002 2 0x2A
        (bytes "I=0000002A\r\n") (bytes "12345678") (by decide) rfl hrep (by decide)
        (by decide)).2.1 (by decide)⟩,
    ⟨by decide,
      (congrArg Prod.snd
        ((irq_report_during_read (demo_world [bytes "I=0000002A\r\n", bytes "R=12345678\r\n"])
          0x1002 2 0x2A (bytes "I=0000002A\r\n") (bytes "12345678") (by decide) rfl hrep
          (by decide) (by decide)).2.2 (by decide))).trans (by decide)⟩⟩

/-- C13: the notification pipe is a queue of levels, empty at the start.  In
a schedule of well-formed interrupt reports handled by `rtl_thread` and of
runs of `rtl_incoming_notification`, interleaved in any way in which every run
has its report before it and with as many runs as reports, the calls of
`qemu_set_irq` made by the runs are those of the reported levels, each once, in
the order of the reports; the pipe is empty at the end. -/
theorem relay_order (w : World) (acts : List RelayAct) (hempty : w.rtl.pipes = [])
    (hwf : ∀ frame, RelayAct.report frame ∈ acts → ∃ level, irq_report frame level)
    (hord : ∀ p, p <+: acts → notify_count p ≤ report_count p)
    (hall : notify_count acts = report_count acts) :
    (relay_run w acts).trace = w.trace ++ (reported acts).map Event.set_irq
    ∧ (relay_run w acts).rtl.pipes = [] := by
  obtain ⟨h1, h2⟩ := relay_run_queue acts w hwf (by
    intro p hp
    rw [hempty]
    simpa using hord p hp)
  rw [hempty, List.nil_append, hall, ← reported_length acts hwf] at h1 h2
  rw [List.take_length] at h1
  rw [List.drop_length] at h2
  exact ⟨h1, h2⟩

theorem relay_order_witness :
    (demo_world []).rtl.pipes = []
    ∧ (∀ frame, RelayAct.report frame ∈ [RelayAct.report (bytes "I=00000001\r\n"),
          RelayAct.report (bytes "I=00000002\r\n"), RelayAct.notify,
          RelayAct.report (bytes "I=00000003\r\n"), RelayAct.notify, RelayAct.notify] →
        ∃ level, irq_report frame level)
    ∧ (∀ p, p <+: [RelayAct.report (bytes "I=00000001\r\n"),
          RelayAct.report (bytes "I=00000002\r\n"), RelayAct.notify,
          RelayAct.report (bytes "I=00000003\r\n"), RelayAct.notify, RelayAct.notify] →
        notify_count p ≤ report_count p)
    ∧ (relay_run (demo_world []) [RelayAct.report (bytes "I=00000001\r\n"),
          RelayAct.report (bytes "I=00000002\r\n"), RelayAct.notify,
          RelayAct.report (bytes "I=00000003\r\n"), RelayAct.notify, RelayAct.notify]).trace
        = [Event.set_irq 1, Event.set_irq 2, Event.set_irq 3] := by
  have hwf : ∀ frame, RelayAct.report frame ∈ [RelayAct.report (bytes "I=00000001\r\n"),
      RelayAct.report (bytes "I=00000002\r\n"), RelayAct.notify,
      RelayAct.report (bytes "I=00000003\r\n"), RelayAct.notify, RelayAct.notify] →
      ∃ level, irq_report frame level := by
    intro frame hf
    simp only [List.mem_cons, RelayAct.report.injEq, List.mem_singleton, reduceCtorEq,
      or_false, false_or, List.mem_nil_iff] at hf
    rcases hf with rfl | rfl | rfl
    · exact ⟨1, by decide, by decide, by decide⟩
    · exact ⟨2, by decide, by decide, by decide⟩
    · exact ⟨3, by decide, by decide, by decide⟩
  have hord : ∀ p, p <+: [RelayAct.report (bytes "I=00000001\r\n"),
      RelayAct.report (bytes "I=00000002\r\n"), RelayAct.notify,
      RelayAct.report (bytes "I=00000003\r\n"), RelayAct.notify, RelayAct.notify] →
      notify_count p ≤ report_count p := by
    intro p hp
    have hall : ∀ q ∈ List.inits [RelayAct.report (bytes "I=00000001\r\n"),
        RelayAct.report (bytes "I=00000002\r\n"), RelayAct.notify,
        RelayAct.report (bytes "I=00000003\r\n"), RelayAct.notify, RelayAct.notify],
        notify_count q ≤ report_count q := by decide
    exact hall p ((List.mem_inits _ _).mpr hp)
  exact ⟨rfl, hwf, hord,
    ((relay_order (demo_world []) _ rfl hwf hord (by decide)).1).trans (by decide)⟩

/-- C19: for every address, value and size, the length `snprintf` reports is
12 for the command of `rtl_read`, 12 for the time-advance and at most 25 for
the write command of `rtl_write`, all below the limit 31; so the branch that
returns without sending is never taken: `rtl_read` and `rtl_write` always
transmit exactly one command, whole, of at most 25 bytes. -/
theorem oversized_branch_unreachable (w : World) (addr val size : Nat) :
    (snprintf 31 (bytes "R:" ++ fmt_X 8 (addr % 2 ^ 32) ++ bytes "\r\n")).2 = 12 ∧
    (snprintf 31 (bytes "T:" ++ fmt_X 8 (val % 2 ^ 32) ++ bytes "\r\n")).2 = 12 ∧
    (snprintf 31 (bytes "W:" ++ fmt_X 8 (addr % 2 ^ 32) ++ bytes "<="
        ++ fmt_X 8 ((val <<< ((addr % 2 ^ 32 &&& 3) * 8)) % 2 ^ 64 % 2 ^ 32) ++ bytes "|"
        ++ fmt_X 1 ((((1 <<< size) - 1) <<< (addr % 2 ^ 32 &&& 3)) % 2 ^ 8)
        ++ bytes "\r\n")).2 ≤ 25 ∧
    (∃ c, sent (rtl_read w addr size).1.trace = sent w.trace ++ [c] ∧ c.length = 12) ∧
    (∃ c, sent (rtl_write w addr val size).1.trace = sent w.trace ++ [c] ∧ c.length ≤ 25) := by
  obtain ⟨b1, b2, b3, b4, b5, b6, -⟩ := bytes_length_facts
  have h8 : ∀ v, (fmt_X 8 v).length = 8 := fun v => by rw [fmt_X_8, hex_field_length]
  have hm := fmt_X_1_length ((((1 <<< size) - 1) <<< (addr % 2 ^ 32 &&& 3)) % 2 ^ 8)
    (Nat.mod_lt _ (by decide))
  refine ⟨?_, ?_, ?_, ⟨_, rtl_read_sent w addr size, ?_⟩, ⟨_, rtl_write_sent w addr val size, ?_⟩⟩
  · simp only [snprintf, List.length_append, h8, b4, b5]
  · simp only [snprintf, List.length_append, h8, b4, b6]
  · simp only [snprintf, List.length_append, h8, b1, b2, b3, b4]
    omega
  · simp only [cmd_R, List.length_append, hex_field_length, b4, b5]
  · split_ifs with hs
    · decide
    · by_cases hc : addr % 2 ^ 32 = sim_ctrl w.rtl
      · rw [(write_text_length w.rtl addr val size).1 hc]
        omega
      · rw [write_text_W_length w.rtl addr val size hc]
        split_ifs <;> omega

/-- C14: with the PTY open, for a symbol value `data ≥ 0` with bit 0 clear and
`data >> 1 ≥ 0x100`, and `b = (data >> 1) & 0xFF`, `pty_write` writes the one
byte `b` when `b ≠ 0xFF` and the two bytes `0xFF 0xFF` when `b = 0xFF`. -/
theorem pty_write_literal (fd data : Int) (hfd : 0 ≤ fd) (hdata : 0 ≤ data)
    (hbit : data % 2 = 0) (hlit : 0x100 ≤ data / 2) :
    (data / 2 % 256 ≠ 0xFF → pty_write fd data = [(data / 2 % 256).toNat]) ∧
    (data / 2 % 256 = 0xFF → pty_write fd data = [0xFF, 0xFF]) := by
  obtain ⟨n, rfl⟩ := Int.eq_ofNat_of_zero_le hdata
  have hodd : ¬ n % 2 = 1 := by omega
  have hbig : ¬ n / 2 < 0x100 := by omega
  have hb : ((n : Int) / 2 % 256).toNat = n / 2 % 256 := by omega
  rw [pty_write_nat fd n hfd]
  simp only [hodd, hbig, if_false, hb]
  constructor
  · intro h
    have : ¬ n / 2 % 256 = 0xFF := by omega
    simp [this]
  · intro h
    have : n / 2 % 256 = 0xFF := by omega
    simp [this]

theorem pty_write_literal_witness :
    ((0 : Int) ≤ 3 ∧ (0 : Int) ≤ 0x282 ∧ (0x282 : Int) % 2 = 0 ∧ (0x100 : Int) ≤ 0x282 / 2
      ∧ (0x282 : Int) / 2 % 256 ≠ 0xFF ∧ pty_write 3 0x282 = [0x41])
    ∧ ((0 : Int) ≤ 0x3FE ∧ (0x3FE : Int) % 2 = 0 ∧ (0x100 : Int) ≤ 0x3FE / 2
      ∧ (0x3FE : Int) / 2 % 256 = 0xFF ∧ pty_write 3 0x3FE = [0xFF, 0xFF]) :=
  ⟨⟨by decide, by decide, by decide, by decide, by decide,
      ((pty_write_literal 3 0x282 (by decide) (by decide) (by decide) (by decide)).1
        (by decide)).trans (by decide)⟩,
   ⟨by decide, by decide, by decide, by decide,
      (pty_write_literal 3 0x3FE (by decide) (by decide) (by decide) (by decide)).2
        (by decide)⟩⟩

/-- C15: with the PTY open, for a symbol value `data ≥ 0` with bit 0 clear and
`data >> 1 < 0x100`, `pty_write` writes the three bytes `0xFF`, `0x00`, `d`,
with `d = 0x00` when `data >> 1` is zero (idle) and `d = 0x15` otherwise
(framing error). -/
theorem pty_write_escape (fd data : Int) (hfd : 0 ≤ fd) (hdata : 0 ≤ data)
    (hbit : data % 2 = 0) (hesc : data / 2 < 0x100) :
    pty_write fd data = [0xFF, 0x00, if data / 2 = 0 then 0x00 else 0x15] := by
  obtain ⟨n, rfl⟩ := Int.eq_ofNat_of_zero_le hdata
  have hodd : ¬ n % 2 = 1 := by omega
  have hsmall : n / 2 < 0x100 := by omega
  rw [pty_write_nat fd n hfd]
  simp only [hodd, hsmall, if_false, if_true]
  by_cases hz : n / 2 = 0
  · have : (n : Int) / 2 = 0 := by omega
    simp [hz, this]
  · have : ¬ (n : Int) / 2 = 0 := by omega
    simp [hz, this]

theorem pty_write_escape_witness :
    ((0 : Int) ≤ 3 ∧ (0 : Int) ≤ 0 ∧ (0 : Int) % 2 = 0 ∧ (0 : Int) / 2 < 0x100
      ∧ pty_write 3 0 = [0xFF, 0x00, 0x00])
    ∧ ((0 : Int) ≤ 0x82 ∧ (0x82 : Int) % 2 = 0 ∧ (0x82 : Int) / 2 < 0x100
      ∧ pty_write 3 0x82 = [0xFF, 0x00, 0x15]) :=
  ⟨⟨by decide, by decide, by decide, by decide,
      (pty_write_escape 3 0 (by decide) (by decide) (by decide) (by decide)).trans (by decide)⟩,
   ⟨by decide, by decide, by decide,
      (pty_write_escape 3 0x82 (by decide) (by decide) (by decide) (by decide)).trans
        (by decide)⟩⟩

/-- C16: for a symbol value with its noise marker (bit 0) set, and for a
negative value, `pty_write` writes nothing, whatever the other bits are and
whether the PTY is open or not. -/
theorem pty_write_noise (fd data : Int) (h : data < 0 ∨ data % 2 = 1) :
    pty_write fd data = [] := by
  by_cases hneg : data < 0
  · simp [pty_write, hneg]
  · have hodd : data % 2 = 1 := h.resolve_left hneg
    obtain ⟨n, rfl⟩ := Int.eq_ofNat_of_zero_le (by omega : 0 ≤ data)
    by_cases hfd : fd < 0
    · simp [pty_write, hneg, hfd]
    · rw [pty_write_nat fd n (by omega)]
      have : n % 2 = 1 := by omega
      simp [this]

theorem pty_write_noise_witness :
    (((0x283 : Int) < 0 ∨ (0x283 : Int) % 2 = 1) ∧ pty_write 3 0x283 = [])
    ∧ (((-4 : Int) < 0 ∨ (-4 : Int) % 2 = 1) ∧ pty_write 3 (-4) = []) :=
  ⟨⟨by decide, pty_write_noise 3 0x283 (by decide)⟩,
   ⟨by decide, pty_write_noise 3 (-4) (by decide)⟩⟩

/-- C17 as stated fails: with the line connected and the transport holding
the two bytes `0xFF 0xFF` that `pty_write` emits for the literal byte `0xFF`,
the two calls of `pty_read` that consume them return `0xFF` and `0xFF`: two
literal symbols, not one. -/
theorem pty_read_destuff_counterexample :
    pty_write 3 (literal_symbol 0xFF) = [0xFF, 0xFF]
    ∧ pty_reads { fd := 3, line_old := true, pending := [0xFF, 0xFF] }
          [{ n := 1, hup := false, pollin := true }, { n := 1, hup := false, pollin := true }]
        = ({ fd := 3, line_old := true, pending := [] }, [0xFF, 0xFF])
    ∧ (pty_reads { fd := 3, line_old := true, pending := [0xFF, 0xFF] }
          [{ n := 1, hup := false, pollin := true },
           { n := 1, hup := false, pollin := true }]).2 ≠ [0xFF] := by
  decide

/-- C17, amended: with the line connected, successive calls of `pty_read`
that each find a byte ready return the bytes of the transport one by one,
unchanged and each as one symbol; so the two calls that consume two
consecutive `0xFF` bytes yield two literal `0xFF` symbols, one for each byte:
`pty_read` does no de-stuffing. -/
theorem pty_read_no_destuff (s : PtyLine) (ps : List Poll) (bs rest : List Nat)
    (hfd : 0 ≤ s.fd) (hold : s.line_old = true) (hlen : ps.length = bs.length)
    (hps : ∀ p ∈ ps, p.hup = false ∧ 0 < p.n ∧ p.pollin = true)
    (hpend : s.pending = bs ++ rest) :
    pty_reads s ps = ({ s with pending := rest }, List.map (fun (b : Nat) => (b : Int)) bs)
    ∧ (bs = [0xFF, 0xFF] → (pty_reads s ps).2 = [0xFF, 0xFF]) := by
  have h := pty_reads_bytes bs rest s ps hfd hold hlen hps hpend
  refine ⟨h, fun hb => ?_⟩
  rw [h, hb]
  rfl

theorem pty_read_no_destuff_witness :
    (0 : Int) ≤ 3
    ∧ [({ n := 1, hup := false, pollin := true } : Poll),
        { n := 1, hup := false, pollin := true }].length = [0xFF, 0xFF].length
    ∧ (∀ p ∈ [({ n := 1, hup := false, pollin := true } : Poll),
          { n := 1, hup := false, pollin := true }], p.hup = false ∧ 0 < p.n ∧ p.pollin = true)
    ∧ (pty_reads { fd := 3, line_old := true, pending := [0xFF, 0xFF, 0x41] }
          [{ n := 1, hup := false, pollin := true },
           { n := 1, hup := false, pollin := true }]).2 = [0xFF, 0xFF] :=
  ⟨by decide, rfl, by decide,
    (pty_read_no_destuff { fd := 3, line_old := true, pending := [0xFF, 0xFF, 0x41] }
      [{ n := 1, hup := false, pollin := true }, { n := 1, hup := false, pollin := true }]
      [0xFF, 0xFF] [0x41] (by decide) rfl rfl (by decide) rfl).2 rfl⟩

/-- C18: with the PTY open and bytes (values below 256) on the transport, a
call of `pty_read` returns the idle symbol `0x100` exactly when the line was
recorded as disconnected and is found connected, the break symbol `0x104`
exactly when it was recorded as connected and is found disconnected; on such a
call the edge is recorded and no byte is taken; on any other call it returns
-1 and changes nothing, or returns the next byte of the transport, a value
below 256, and takes it.  Hence, from the initial state (disconnected), a run
of calls that finds the line connected, connected again any number of times,
then disconnected, returns one `0x100`, then values that are -1 or the first
bytes of the transport, unchanged and in order, then one `0x104`. -/
theorem connection_edge_mapping (s : PtyLine) (p : Poll) (hfd : 0 ≤ s.fd)
    (hbytes : ∀ b ∈ s.pending, b < 256) :
    ((pty_read s p).2 = 0x100 ↔ (s.line_old = false ∧ p.hup = false)) ∧
    ((pty_read s p).2 = 0x104 ↔ (s.line_old = true ∧ p.hup = true)) ∧
    (s.line_old = p.hup → (pty_read s p).1 = { s with line_old := !p.hup }) ∧
    (s.line_old = (!p.hup) →
      pty_read s p = (s, -1)
      ∨ ∃ x rest, s.pending = x :: rest ∧ x < 256
          ∧ pty_read s p = ({ s with pending := rest }, (x : Int))) ∧
    (∀ (up : Poll) (mids : List Poll) (down : Poll), s.line_old = false → up.hup = false →
      (∀ m ∈ mids, m.hup = false) → down.hup = true →
      ∃ outs k, pty_reads s (up :: mids ++ [down])
          = ({ s with pending := s.pending.drop k }, 0x100 :: outs ++ [0x104])
        ∧ outs.filter (fun o => decide (o ≠ -1))
            = List.map (fun (b : Nat) => (b : Int)) (s.pending.take k)
        ∧ ∀ o ∈ outs, o = -1 ∨ (0 ≤ o ∧ o < 256)) := by
  have hsteady : s.line_old = (!p.hup) →
      pty_read s p = (s, -1)
      ∨ ∃ x rest, s.pending = x :: rest ∧ x < 256
          ∧ pty_read s p = ({ s with pending := rest }, (x : Int)) := by
    intro h
    rcases pty_read_steady s p hfd h with h1 | ⟨x, rest, hx, h1⟩
    · exact Or.inl h1
    · exact Or.inr ⟨x, rest, hx, hbytes x (by simp [hx]), h1⟩
  have hval : s.line_old = (!p.hup) → (pty_read s p).2 ≠ 0x100 ∧ (pty_read s p).2 ≠ 0x104 := by
    intro h
    rcases hsteady h with h1 | ⟨x, rest, -, hx, h1⟩
    · rw [h1]
      exact ⟨by show (-1 : Int) ≠ 256; decide, by show (-1 : Int) ≠ 260; decide⟩
    · rw [h1]
      exact ⟨by show (x : Int) ≠ 256; omega, by show (x : Int) ≠ 260; omega⟩
  refine ⟨?_, ?_, fun h => by rw [pty_read_edge s p hfd h], hsteady, ?_⟩
  · cases ho : s.line_old <;> cases hh : p.hup
    · simp [pty_read_edge s p hfd (by rw [ho, hh]), hh]
    · simpa using (hval (by simp [ho, hh])).1
    · simpa using (hval (by simp [ho, hh])).1
    · simp [pty_read_edge s p hfd (by rw [ho, hh]), hh]
  · cases ho : s.line_old <;> cases hh : p.hup
    · simp [pty_read_edge s p hfd (by rw [ho, hh]), hh]
    · simpa using (hval (by simp [ho, hh])).2
    · simpa using (hval (by simp [ho, hh])).2
    · simp [pty_read_edge s p hfd (by rw [ho, hh]), hh]
  · intro up mids down hold hup hmids hdown
    have h1 : pty_read s up = ({ s with line_old := true }, 0x100) := by
      rw [pty_read_edge s up hfd (by rw [hold, hup])]
      simp [hup]
    obtain ⟨k, h2, h3, h4⟩ := pty_reads_connected mids { s with line_old := true } hfd rfl hmids
    have h5 : pty_read { s with line_old := true, pending := s.pending.drop k } down
        = ({ s with pending := s.pending.drop k }, 0x104) := by
      rw [pty_read_edge { s with line_old := true, pending := s.pending.drop k } down hfd
        (by simp [hdown])]
      simp [hdown, hold]
    refine ⟨(pty_reads { s with line_old := true } mids).2, k, ?_, h3, ?_⟩
    · rw [show up :: mids ++ [down] = [up] ++ (mids ++ [down]) from rfl, pty_reads_append,
        pty_reads_append]
      simp only [pty_reads, h1]
      rw [h2]
      simp only [h5]
      simp
    · intro o ho
      rcases h4 o ho with h6 | ⟨b, hb, h6⟩
      · exact Or.inl h6
      · have := hbytes b hb
        exact Or.inr (by omega)

theorem connection_edge_mapping_witness :
    (0 : Int) ≤ 3 ∧ (∀ b ∈ [0x41, 0xFF], b < 256)
    ∧ ((false : Bool) = false
      ∧ (pty_read { fd := 3, line_old := false, pending := [0x41, 0xFF] }
            { n := 1, hup := false, pollin := true }).1
          = { fd := 3, line_old := true, pending := [0x41, 0xFF] })
    ∧ ((∀ m ∈ [({ n := 1, hup := false, pollin := true } : Poll),
          { n := 0, hup := false, pollin := false }, { n := 1, hup := false, pollin := true }],
          m.hup = false)
      ∧ ∃ outs k, pty_reads { fd := 3, line_old := false, pending := [0x41, 0xFF] }
            ({ n := 1, hup := false, pollin := true }
              :: [({ n := 1, hup := false, pollin := true } : Poll),
                  { n := 0, hup := false, pollin := false },
                  { n := 1, hup := false, pollin := true }]
              ++ [{ n := 1, hup := true, pollin := true }])
          = ({ fd := 3, line_old := false, pending := List.drop k [0x41, 0xFF] },
             0x100 :: outs ++ [0x104])
        ∧ outs.filter (fun o => decide (o ≠ -1))
            = List.map (fun (b : Nat) => (b : Int)) (List.take k [0x41, 0xFF])
        ∧ ∀ o ∈ outs, o = -1 ∨ (0 ≤ o ∧ o < 256)) :=
  ⟨by decide, by decide,
    ⟨rfl, (connection_edge_mapping { fd := 3, line_old := false, pending := [0x41, 0xFF] }
        { n := 1, hup := false, pollin := true } (by decide) (by decide)).2.2.1 rfl⟩,
    ⟨by decide, (connection_edge_mapping { fd := 3, line_old := false, pending := [0x41, 0xFF] }
        { n := 1, hup := false, pollin := true } (by decide) (by decide)).2.2.2.2
        { n := 1, hup := false, pollin := true } _ { n := 1, hup := true, pollin := true }
        rfl rfl (by decide) rfl⟩⟩

/-- C20: with the PTY open, let `ds` be symbol values that `pty_write` takes as
literal data bytes (`d ≥ 0`, bit 0 clear, `d >> 1 ≥ 0x100`; the byte is
`(d >> 1) & 0xFF`).  The concatenation of the bytes `pty_write` emits for them,
split in any way into non-empty read chunks and fed to `serial_read` starting
with `e = 0`, never stops the reading loop, ends with `e = 0`, and appends to
the output buffer exactly the bytes of `ds`, in order.  The three bytes that
`pty_write` emits for a symbol below `0x100` (`d >> 1 < 0x100`), chunked in
any way, leave the reader as it was: nothing is appended and `e` is 0 again
(the call reports a break, returning false, exactly when a block has already
been processed). -/
theorem wire_round_trip (fd : Int) (st : Reader) (ds : List Int) (chunks : List (List Nat))
    (hfd : 0 ≤ fd) (he : st.e = 0) (hlit : ∀ d ∈ ds, 0 ≤ d ∧ d % 2 = 0 ∧ 0x100 ≤ d / 2)
    (hne : ∀ c ∈ chunks, c ≠ []) (hsplit : chunks.flatten = (ds.map (pty_write fd)).flatten) :
    (serial_reads st chunks).2 = true
    ∧ (serial_reads st chunks).1.e = 0
    ∧ (serial_reads st chunks).1.output
        = st.output ++ List.map (fun (d : Int) => (d / 2 % 256).toNat) ds
    ∧ ∀ (d : Int) (parts : List (List Nat)), 0 ≤ d → d % 2 = 0 → d / 2 < 0x100 →
        (∀ c ∈ parts, c ≠ []) → parts.flatten = pty_write fd d →
        (pty_write fd d).length = 3
        ∧ serial_reads st parts = (st, decide (st.lines = 0)) := by
  rw [serial_reads_flatten chunks st hne, hsplit]
  obtain ⟨h1, h2, h3⟩ := serial_loop_literals fd hfd ds st he hlit
  refine ⟨h1, h2, h3, ?_⟩
  intro d parts hd0 hd1 hd2 hparts hflat
  obtain ⟨n, rfl⟩ := Int.eq_ofNat_of_zero_le hd0
  have hodd : ¬ n % 2 = 1 := by omega
  have hsmall : n / 2 < 0x100 := by omega
  have hw : pty_write fd (n : Int) = [0xFF, 0x00, if n / 2 = 0 then 0x00 else 0x15] := by
    rw [pty_write_nat fd n hfd]
    simp only [hodd, hsmall, if_false, if_true]
  rw [serial_reads_flatten parts st hparts, hflat, hw]
  exact ⟨rfl, serial_loop_escape st _ he⟩

theorem wire_round_trip_witness :
    (0 : Int) ≤ 3 ∧ (⟨0, 0, [], []⟩ : Reader).e = 0
    ∧ (∀ d ∈ [(0x282 : Int), 0x3FE, 0x200], 0 ≤ d ∧ d % 2 = 0 ∧ 0x100 ≤ d / 2)
    ∧ (∀ c ∈ [[0x41, 0xFF], [0xFF, 0x00]], c ≠ [])
    ∧ List.flatten [[0x41, 0xFF], [0xFF, 0x00]]
        = (List.map (pty_write 3) [(0x282 : Int), 0x3FE, 0x200]).flatten
    ∧ (serial_reads ⟨0, 0, [], []⟩ [[0x41, 0xFF], [0xFF, 0x00]]).2 = true
    ∧ (serial_reads ⟨0, 0, [], []⟩ [[0x41, 0xFF], [0xFF, 0x00]]).1.e = 0
    ∧ (serial_reads ⟨0, 0, [], []⟩ [[0x41, 0xFF], [0xFF, 0x00]]).1.output = [0x41, 0xFF, 0x00]
    ∧ ((0 : Int) ≤ 0x2A ∧ (0x2A : Int) % 2 = 0 ∧ (0x2A : Int) / 2 < 0x100
      ∧ (∀ c ∈ [[0xFF], [0x00, 0x15]], c ≠ [])
      ∧ List.flatten [[0xFF], [0x00, 0x15]] = pty_write 3 0x2A
      ∧ serial_reads ⟨0, 0, [], []⟩ [[0xFF], [0x00, 0x15]] = (⟨0, 0, [], []⟩, true)) :=
  ⟨by decide, rfl, by decide, by decide, by decide,
    (wire_round_trip 3 ⟨0, 0, [], []⟩ [0x282, 0x3FE, 0x200] [[0x41, 0xFF], [0xFF, 0x00]]
      (by decide) rfl (by decide) (by decide) (by decide)).1,
    (wire_round_trip 3 ⟨0, 0, [], []⟩ [0x282, 0x3FE, 0x200] [[0x41, 0xFF], [0xFF, 0x00]]
      (by decide) rfl (by decide) (by decide) (by decide)).2.1,
    (wire_round_trip 3 ⟨0, 0, [], []⟩ [0x282, 0x3FE, 0x200] [[0x41, 0xFF], [0xFF, 0x00]]
      (by decide) rfl (by decide) (by decide) (by decide)).2.2.1,
    by decide, by decide, by decide, by decide, by decide,
    ((wire_round_trip 3 ⟨0, 0, [], []⟩ [0x282, 0x3FE, 0x200] [[0x41, 0xFF], [0xFF, 0x00]]
      (by decide) rfl (by decide) (by decide) (by decide)).2.2.2 0x2A [[0xFF], [0x00, 0x15]]
      (by decide) (by decide) (by decide) (by decide) (by decide)).2⟩

end Cosim
